import Mathlib

/-!
# Verification of the documentation generator of `create-cursor-mcp`

This development is a shallow embedding of the documentation generator
(`template/scripts/docgen-acorn.ts`, the feature-complete revision, and the
AST-first revision of the same script kept in the repository) together with
proofs about it.

Modelling conventions:

* JavaScript strings are modelled as `List Char`; the regular expressions of
  the source are implemented as explicit matchers over `List Char`, each
  faithful to the JS semantics of its concrete pattern: leftmost match,
  greedy character classes (none of the patterns needs backtracking inside a
  class, since every class is followed by a character it excludes),
  non-greedy `+?` with minimal expansion, optional groups tried
  with-then-without.  `\w` is `[A-Za-z0-9_]`, `\s` is modelled by the ASCII
  whitespace characters, `["']` matches either quote character.
* The global-flag `exec` loops resume scanning at the end of the previous
  match; they are implemented with an explicit fuel argument (one unit per
  scanned position) so that every definition is structurally recursive and
  kernel-evaluable; `fuel = length of the input` is always sufficient since
  every match consumes at least one character.
* The `acorn` parser and `acorn-walk` are external libraries (collaborators),
  not code of this repository.  Parsed syntax trees are modelled by the
  inductive `JExpr`/`PropNode`/`Stmt` types covering the node kinds the
  generator consumes, and the parse *call* (which can throw) is modelled by
  an oracle `List Char → Option (List Stmt)`, `none` standing for a thrown
  parse error.
* File I/O (read the source file, write `dist/docs.json`) is at the
  boundary; the embedded pipeline is the pure function from source text to
  the output document.
-/

/-- JavaScript runtime values occurring as AST `Literal` payloads. -/
inductive JsVal where
  | str (s : List Char)
  | num (n : Int)
  | boolean (b : Bool)
  | null
deriving DecidableEq, Repr

mutual
/-- The subset of acorn expression node kinds consumed by the generator.
`otherE` stands for every node kind the generator never inspects
(functions, arrays, binary expressions, ...). -/
inductive JExpr where
  | ident (name : List Char)
  | lit (v : JsVal)
  | thisE
  | member (obj : JExpr) (prop : JExpr)
  | call (callee : JExpr) (args : List JExpr)
  | object (props : List PropNode)
  | otherE
deriving Repr

/-- Members of an `ObjectExpression`: ordinary properties (key node, value
node) and spread elements. -/
inductive PropNode where
  | property (key : JExpr) (value : JExpr)
  | spread (arg : JExpr)
deriving Repr
end

/-- One declarator of a `VariableDeclaration` (`const schema = ...`); the
generator only reads its initializer. -/
structure VDecl where
  init : Option JExpr
deriving Repr

/-- Statements of the parsed mini-program handed back by the parse oracle. -/
inductive Stmt where
  | varDecl (decls : List VDecl)
  | otherStmt
deriving Repr

/-- `Param` record of `docgen-types.ts`: name, builder-type tag, optional
description (`JsVal`, because the AST path stores the raw literal value via a
type cast) and optional `optional` flag (the AST-first revision omits both
optional fields when building params). -/
structure Param where
  name : List Char
  type : List Char
  description : Option JsVal := none
  optional : Option Bool := none
deriving DecidableEq, Repr

/-- `Returns` record of `docgen-types.ts`. -/
structure Returns where
  type : List Char
  description : Option (List Char) := none
deriving DecidableEq, Repr

/-- `MethodDoc` record of `docgen-types.ts`. -/
structure MethodDoc where
  name : List Char
  description : List Char
  params : List Param
  returns : Option Returns
deriving DecidableEq, Repr

/-- `StaticProperty` record of `docgen-types.ts` (the generator always emits
an empty `statics` table, but the field is part of the document shape). -/
structure StaticProperty where
  name : List Char
  description : List Char
  type : List Char
deriving DecidableEq, Repr

/-- `EntrypointDoc` record of `docgen-types.ts`. -/
structure EntrypointDoc where
  exported_as : List Char
  description : Option (List Char)
  methods : List MethodDoc
  statics : List (List Char × List StaticProperty)
deriving DecidableEq, Repr

/-- The output document: a JSON object mapping export names to entrypoint
documents, with insertion order preserved (as `JSON.parse`/`JSON.stringify`
do). -/
def DocsJson := List (List Char × EntrypointDoc)
deriving DecidableEq

/-! ## Character classes of the source's regular expressions -/

/-- JS `\w` — `[A-Za-z0-9_]`. -/
def isWordChar (c : Char) : Bool := c.isAlpha || c.isDigit || c = '_'

/-- JS `\s`, restricted to the ASCII whitespace characters (the scanned
source files contain no exotic Unicode whitespace). -/
def isJsSpace (c : Char) : Bool :=
  c = ' ' || c = '\t' || c = '\n' || c = '\r' || c = '\x0b' || c = '\x0c'

/-- JS `["']`. -/
def isQuote (c : Char) : Bool := c = '"' || c = '\''

/-! ## Generic matching primitives -/

/-- Consume an exact literal prefix; `some r` is the rest after the literal. -/
def dropLit : List Char → List Char → Option (List Char)
  | [], s => some s
  | c :: cs, d :: ds => if d = c then dropLit cs ds else none
  | _ :: _, [] => none

/-- `["']([^"']+)["']` — a quoted, nonempty, quote-free run; returns
`(openQuote, content, closeQuote, rest)`.  The two quotes need not agree,
exactly as in the source's character classes. -/
def quotedM (s : List Char) : Option (Char × List Char × Char × List Char) :=
  match s with
  | c :: cs =>
    if isQuote c then
      let content := cs.takeWhile (fun x => !isQuote x)
      match cs.dropWhile (fun x => !isQuote x) with
      | d :: ds =>
        if isQuote d then
          if content.isEmpty then none else some (c, content, d, ds)
        else none
      | [] => none
    else none
  | [] => none

/-- JS `String.prototype.includes` on char lists. -/
def containsSub (pat : List Char) : List Char → Bool
  | [] => pat.isEmpty
  | s@(_ :: cs) => pat.isPrefixOf s || containsSub pat cs

/-! ### Length bookkeeping for the primitives -/

theorem dropLit_length_le {l s r : List Char} (h : dropLit l s = some r) :
    r.length ≤ s.length := by
  induction l generalizing s with
  | nil => simp [dropLit] at h; simp [h]
  | cons c cs ih =>
    cases s with
    | nil => simp [dropLit] at h
    | cons d ds =>
      by_cases hd : d = c
      · simp [dropLit, hd] at h
        exact Nat.le_trans (ih h) (by simp)
      · simp [dropLit, hd] at h

theorem dropLit_length_lt {c : Char} {l s r : List Char}
    (h : dropLit (c :: l) s = some r) : r.length < s.length := by
  cases s with
  | nil => simp [dropLit] at h
  | cons d ds =>
    by_cases hd : d = c
    · simp [dropLit, hd] at h
      exact Nat.lt_succ_of_le (dropLit_length_le h)
    · simp [dropLit, hd] at h

/-- `dropLit` recovers the decomposition of its input. -/
theorem dropLit_eq_append {l s r : List Char} (h : dropLit l s = some r) :
    s = l ++ r := by
  induction l generalizing s with
  | nil => simp [dropLit] at h; simp [h]
  | cons c cs ih =>
    cases s with
    | nil => simp [dropLit] at h
    | cons d ds =>
      by_cases hd : d = c
      · simp [dropLit, hd] at h
        simp [hd, ih h]
      · simp [dropLit, hd] at h

theorem length_dropWhile_le' (p : Char → Bool) (s : List Char) :
    (s.dropWhile p).length ≤ s.length := by
  induction s with
  | nil => simp
  | cons c cs ih =>
    by_cases hc : p c
    · simp [List.dropWhile, hc]
      exact Nat.le_trans ih (by simp)
    · simp [List.dropWhile, hc]

theorem quotedM_rest_lt {s : List Char} {a b : Char} {c r : List Char}
    (h : quotedM s = some (a, c, b, r)) : r.length < s.length := by
  cases s with
  | nil => simp [quotedM] at h
  | cons x xs =>
    by_cases hx : isQuote x
    · simp only [quotedM, hx, if_true] at h
      rcases hd : xs.dropWhile (fun x => !isQuote x) with _ | ⟨d, ds⟩ <;>
        rw [hd] at h
      · simp at h
      · by_cases hq : isQuote d
        · by_cases he : (xs.takeWhile (fun x => !isQuote x)).isEmpty
          · simp [hq, he] at h
          · simp [hq, he] at h
            have h1 : ds.length < (xs.dropWhile (fun x => !isQuote x)).length := by
              rw [hd]; simp
            have h2 := length_dropWhile_le' (fun x => !isQuote x) xs
            have := h.2.2.2
            subst this
            simp only [List.length_cons]
            omega
        · simp [hq] at h
    · simp [quotedM, hx] at h

/-! ## The fallback parameter extractor (`extractParamsWithRegex`)

Regex: `(\w+):\s*z\.(\w+)\(\)(?:\.optional\(\))?(?:\.describe\(["']([^"']+)["']\))?`
with the `g` flag, and `optional = match[0].includes(".optional()")`,
`description = match[3] || undefined`. -/

/-- The optional group `(?:\.optional\(\))?`: `(consumedText, rest)`. -/
def optionalPartM (s : List Char) : List Char × List Char :=
  match dropLit (".optional()".data) s with
  | some r => (".optional()".data, r)
  | none => ([], s)

/-- The optional group `(?:\.describe\(["']([^"']+)["']\))?`:
`(consumedText, capturedDescription, rest)`.  If any piece of the group fails
the whole group matches nothing (JS optional-group semantics). -/
def describePartM (s : List Char) : List Char × Option (List Char) × List Char :=
  match dropLit (".describe(".data) s with
  | some r1 =>
    match quotedM r1 with
    | some (q1, d, q2, r2) =>
      match dropLit ([')']) r2 with
      | some r3 => (".describe(".data ++ q1 :: (d ++ q2 :: [')']), some d, r3)
      | none => ([], none, s)
    | none => ([], none, s)
  | none => ([], none, s)

/-- The pieces of one successful `paramRegex` match: the full matched text
`match0`, the captured name and type, and the captured description. -/
structure ParamMatch where
  match0 : List Char
  pname : List Char
  ptype : List Char
  pdesc : Option (List Char)
deriving DecidableEq, Repr

/-- Try `paramRegex` anchored at the head of `s`; returns the match record and
the rest of the input after the matched text. -/
def tryParamMatch (s : List Char) : Option (ParamMatch × List Char) :=
  if (s.takeWhile isWordChar).isEmpty then none else
  match dropLit ([':']) (s.dropWhile isWordChar) with
  | some s2 =>
    match dropLit ("z.".data) (s2.dropWhile isJsSpace) with
    | some s4 =>
      if (s4.takeWhile isWordChar).isEmpty then none else
      match dropLit ("()".data) (s4.dropWhile isWordChar) with
      | some s6 =>
        some ({ match0 := s.takeWhile isWordChar ++ ':' ::
                  (s2.takeWhile isJsSpace ++ "z.".data ++ s4.takeWhile isWordChar ++
                    "()".data ++ (optionalPartM s6).1 ++
                    (describePartM (optionalPartM s6).2).1)
                pname := s.takeWhile isWordChar
                ptype := s4.takeWhile isWordChar
                pdesc := (describePartM (optionalPartM s6).2).2.1 },
              (describePartM (optionalPartM s6).2).2.2)
      | none => none
    | none => none
  | none => none

theorem optionalPartM_rest_le (s : List Char) :
    (optionalPartM s).2.length ≤ s.length := by
  unfold optionalPartM
  rcases h : dropLit (".optional()".data) s with _ | r
  · simp
  · simpa using dropLit_length_le h

theorem describePartM_rest_le (s : List Char) :
    (describePartM s).2.2.length ≤ s.length := by
  unfold describePartM
  rcases h1 : dropLit (".describe(".data) s with _ | r1
  · simp
  · dsimp only
    rcases h2 : quotedM r1 with _ | ⟨q1, d, q2, r2⟩
    · simp
    · dsimp only
      rcases h3 : dropLit ([')']) r2 with _ | r3
      · simp
      · have e1 := dropLit_length_le h3
        have e2 := quotedM_rest_lt h2
        have e3 := dropLit_length_le h1
        dsimp only
        omega

theorem tryParamMatch_rest_lt {s : List Char} {m : ParamMatch} {r : List Char}
    (h : tryParamMatch s = some (m, r)) : r.length < s.length := by
  unfold tryParamMatch at h
  by_cases h0 : (s.takeWhile isWordChar).isEmpty
  · simp [h0] at h
  · rw [if_neg h0] at h
    rcases h1 : dropLit ([':']) (s.dropWhile isWordChar) with _ | s2
    · rw [h1] at h; simp at h
    · rw [h1] at h; dsimp only at h
      rcases h2 : dropLit ("z.".data) (s2.dropWhile isJsSpace) with _ | s4
      · rw [h2] at h; simp at h
      · rw [h2] at h; dsimp only at h
        by_cases h3 : (s4.takeWhile isWordChar).isEmpty
        · simp [h3] at h
        · rw [if_neg h3] at h
          rcases h4 : dropLit ("()".data) (s4.dropWhile isWordChar) with _ | s6
          · rw [h4] at h; simp at h
          · rw [h4] at h; dsimp only at h
            simp only [Option.some.injEq, Prod.mk.injEq] at h
            have hr : r = (describePartM (optionalPartM s6).2).2.2 := h.2.symm
            have e1 : (describePartM (optionalPartM s6).2).2.2.length ≤
                (optionalPartM s6).2.length := describePartM_rest_le _
            have e2 : (optionalPartM s6).2.length ≤ s6.length :=
              optionalPartM_rest_le _
            have e3 : s6.length ≤ (s4.dropWhile isWordChar).length :=
              dropLit_length_le h4
            have e4 : (s4.dropWhile isWordChar).length ≤ s4.length :=
              length_dropWhile_le' _ _
            have e5 : s4.length ≤ (s2.dropWhile isJsSpace).length :=
              dropLit_length_le h2
            have e6 : (s2.dropWhile isJsSpace).length ≤ s2.length :=
              length_dropWhile_le' _ _
            have e7 : s2.length < (s.dropWhile isWordChar).length :=
              dropLit_length_lt h1
            have e8 : (s.dropWhile isWordChar).length ≤ s.length :=
              length_dropWhile_le' _ _
            subst hr
            omega

/-- Build the `Param` pushed by `extractParamsWithRegex` from one match. -/
def paramOfMatch (m : ParamMatch) : Param :=
  { name := m.pname
    type := m.ptype
    description := m.pdesc.map JsVal.str
    optional := some (containsSub (".optional()".data) m.match0) }

/-- The `g`-flag exec loop of `extractParamsWithRegex`: scan left to right,
resuming after each match.  Fuel-indexed; `fuel = input length` suffices. -/
def paramScanF : Nat → List Char → List Param
  | 0, _ => []
  | _ + 1, [] => []
  | fuel + 1, c :: cs =>
    match tryParamMatch (c :: cs) with
    | some (m, rest) => paramOfMatch m :: paramScanF fuel rest
    | none => paramScanF fuel cs

/-- `extractParamsWithRegex` of `docgen-acorn.ts`. -/
def extractParamsWithRegex (schemaText : List Char) : List Param :=
  paramScanF schemaText.length schemaText

/-- The fuel argument is irrelevant once it covers the input length. -/
theorem paramScanF_fuel_irrel :
    ∀ (f g : Nat) (s : List Char), s.length ≤ f → s.length ≤ g →
      paramScanF f s = paramScanF g s := by
  intro f
  induction f with
  | zero =>
    intro g s hf _
    have : s = [] := by
      cases s with
      | nil => rfl
      | cons c cs => simp at hf
    subst this
    cases g <;> simp [paramScanF]
  | succ f ih =>
    intro g s hf hg
    cases s with
    | nil => cases g <;> simp [paramScanF]
    | cons c cs =>
      cases g with
      | zero => simp at hg
      | succ g =>
        simp only [paramScanF]
        rcases h : tryParamMatch (c :: cs) with _ | ⟨m, rest⟩
        · exact ih g cs (by simp at hf; omega) (by simp at hg; omega)
        · have hlt := tryParamMatch_rest_lt h
          simp only [List.length_cons] at hlt hf hg
          dsimp only
          rw [ih g rest (by omega) (by omega)]

example :
    extractParamsWithRegex ("\x7b a: z.string().optional().describe(\"x\") \x7d".data) =
      [{ name := "a".data, type := "string".data,
         description := some (JsVal.str ("x".data)), optional := some true }] := by
  decide

example :
    extractParamsWithRegex ("\x7b a: z.string().describe(\"x\").optional() \x7d".data) =
      [{ name := "a".data, type := "string".data,
         description := some (JsVal.str ("x".data)), optional := some false }] := by
  decide

/-! ## The structural schema analyzer (`extractSchemaParams`)

For each property of the parsed schema object whose value is a call chain,
the source first walks to the innermost call of the member-call spine to
recover the base type (`z.<type>()`), then re-walks the spine from the
outside in, noting `.optional()` and `.describe(<literal>)` calls. -/

/-- The base-type walk of `extractSchemaParams`: while the callee is a member
expression whose object is itself a call, descend into that call. -/
def walkToBase : JExpr → JExpr
  | JExpr.call callee args =>
    match callee with
    | JExpr.member obj _ =>
      match obj with
      | JExpr.call c2 a2 => walkToBase (JExpr.call c2 a2)
      | _ => JExpr.call callee args
    | _ => JExpr.call callee args
  | e => e

/-- The base-type check of `extractSchemaParams`: the innermost spine call
must be `z.<ident>(...)` with `z` a plain identifier. -/
def baseTypeOf (e : JExpr) : List Char :=
  match walkToBase e with
  | JExpr.call (JExpr.member (JExpr.ident zn) (JExpr.ident t)) _ =>
    if zn = "z".data then t else "unknown".data
  | _ => "unknown".data

/-- `p` is an `Identifier` node with the given name (the guard
`callee.property.type === "Identifier" && callee.property.name === target`). -/
def propIsIdentNamed (p : JExpr) (target : List Char) : Bool :=
  match p with
  | JExpr.ident n => n = target
  | _ => false

/-- The `.describe()` check of the modifier walk: when the property is the
identifier `describe` and the first argument is a `Literal`, record its
value (overwriting any value recorded on an outer chain link). -/
def describeArgUpdate (p : JExpr) (args : List JExpr) (desc : Option JsVal) :
    Option JsVal :=
  match p with
  | JExpr.ident n =>
    if n = "describe".data then
      match args with
      | JExpr.lit v :: _ => some v
      | _ => desc
    else desc
  | _ => desc

/-- The modifier walk of `extractSchemaParams`: from the outermost call move
through `callee.object` while the current node is a call, marking
`optional` and recording the argument of the innermost `.describe(<Literal>)`
(later assignments in the source overwrite earlier ones, so the innermost
wins).  When the callee is not a member expression, `callee.object` is
`undefined` and the loop exits. -/
def scanChain : JExpr → Bool → Option JsVal → Bool × Option JsVal
  | JExpr.call callee args, opt, desc =>
    match callee with
    | JExpr.member obj p =>
      scanChain obj (opt || propIsIdentNamed p ("optional".data))
        (describeArgUpdate p args desc)
    | _ => (opt, desc)
  | _, opt, desc => (opt, desc)

/-- Analysis of one schema-object property value (`extractSchemaParams` body):
non-call values keep the initial `unknown`/`false`/`undefined` settings. -/
def analyzeValue (pname : List Char) (v : JExpr) : Param :=
  match v with
  | JExpr.call callee args =>
    { name := pname
      type := baseTypeOf (JExpr.call callee args)
      description := (scanChain (JExpr.call callee args) false none).2
      optional := some (scanChain (JExpr.call callee args) false none).1 }
  | _ =>
    { name := pname, type := "unknown".data, description := none,
      optional := some false }

/-- Property filter of `extractSchemaParams`: only `Property` nodes with an
`Identifier` key produce a `Param`. -/
def propToParam : PropNode → Option Param
  | PropNode.property (JExpr.ident pname) v => some (analyzeValue pname v)
  | _ => none

/-- `extractSchemaParams`: the `acorn-walk` pass over the parsed
`const schema = {...}` program.  In the modelled node subset statements occur
only at the program's top level, so the walk's visit order is the statement
order; for each `VariableDeclaration` with a nonempty declarator list whose
first declarator initializer is an object expression, its properties are
appended in source order. -/
def extractSchemaParams (prog : List Stmt) : List Param :=
  prog.foldl
    (fun acc st =>
      match st with
      | Stmt.varDecl decls =>
        match decls.head? with
        | some d =>
          match d.init with
          | some (JExpr.object props) => acc ++ props.filterMap propToParam
          | _ => acc
        | none => acc
      | Stmt.otherStmt => acc)
    []

/-- Claim-side predicate: the method chain (the member-call spine the
modifier walk traverses) contains the optional-marking modifier `.optional()`
somewhere. -/
def chainHasOptional : JExpr → Bool
  | JExpr.call callee _ =>
    match callee with
    | JExpr.member obj p => propIsIdentNamed p ("optional".data) || chainHasOptional obj
    | _ => false
  | _ => false

theorem scanChain_fst : ∀ (e : JExpr) (opt : Bool) (desc : Option JsVal),
    (scanChain e opt desc).1 = (opt || chainHasOptional e)
  | JExpr.call (JExpr.member obj p) args, opt, desc => by
    simp only [scanChain, chainHasOptional]
    rw [scanChain_fst obj]
    simp [Bool.or_assoc]
  | JExpr.call (JExpr.ident _) _, _, _ => by simp [scanChain, chainHasOptional]
  | JExpr.call (JExpr.lit _) _, _, _ => by simp [scanChain, chainHasOptional]
  | JExpr.call JExpr.thisE _, _, _ => by simp [scanChain, chainHasOptional]
  | JExpr.call (JExpr.call _ _) _, _, _ => by simp [scanChain, chainHasOptional]
  | JExpr.call (JExpr.object _) _, _, _ => by simp [scanChain, chainHasOptional]
  | JExpr.call JExpr.otherE _, _, _ => by simp [scanChain, chainHasOptional]
  | JExpr.ident _, _, _ => by simp [scanChain, chainHasOptional]
  | JExpr.lit _, _, _ => by simp [scanChain, chainHasOptional]
  | JExpr.thisE, _, _ => by simp [scanChain, chainHasOptional]
  | JExpr.member _ _, _, _ => by simp [scanChain, chainHasOptional]
  | JExpr.object _, _, _ => by simp [scanChain, chainHasOptional]
  | JExpr.otherE, _, _ => by simp [scanChain, chainHasOptional]

/-! ## The tool-segment locator (`extractToolSegments`)

Regex (with the `g` flag):
`this\.server\.tool\(\s*["']([^"']+)["'](?:\s*,\s*["']([^"']+)["'])?(?:\s*,\s*({[\s\S]+?})),\s*async` -/

/-- The closing context of the non-greedy schema group: `}` `,` `\s*` `async`.
Returns `(consumedText, rest)`. -/
def closeTailM (s : List Char) : Option (List Char × List Char) :=
  match dropLit ("\x7d,".data) s with
  | some s2 =>
    match dropLit ("async".data) (s2.dropWhile isJsSpace) with
    | some r => some ("\x7d,".data ++ (s2.takeWhile isJsSpace ++ "async".data), r)
    | none => none
  | none => none

/-- Non-greedy `[\s\S]+?` followed by the closing context: take the least
nonempty body such that the closing context matches right after it.
Returns `(body, closingText, rest)`. -/
def braceBodyGo : List Char → Option (List Char × List Char × List Char)
  | [] => none
  | c :: cs =>
    match closeTailM cs with
    | some (cl, r) => some ([c], cl, r)
    | none =>
      match braceBodyGo cs with
      | some (body, cl, r) => some (c :: body, cl, r)
      | none => none

/-- The optional description group `\s*,\s*["']([^"']+)["']`:
`(consumedText, description, rest)`. -/
def descPartM (s : List Char) : Option (List Char × List Char × List Char) :=
  match dropLit ([',']) (s.dropWhile isJsSpace) with
  | some s2 =>
    match quotedM (s2.dropWhile isJsSpace) with
    | some (q1, d, q2, r) =>
      some (s.takeWhile isJsSpace ++ ',' ::
              (s2.takeWhile isJsSpace ++ q1 :: (d ++ [q2])), d, r)
    | none => none
  | none => none

/-- The schema group with its closing context:
`\s*,\s*({[\s\S]+?}),\s*async` — `(consumedText, schemaCapture, rest)`. -/
def schemaPartM (s : List Char) : Option (List Char × List Char × List Char) :=
  match dropLit ([',']) (s.dropWhile isJsSpace) with
  | some s2 =>
    match dropLit (['{']) (s2.dropWhile isJsSpace) with
    | some s4 =>
      match braceBodyGo s4 with
      | some (body, cl, r) =>
        some (s.takeWhile isJsSpace ++ ',' ::
                (s2.takeWhile isJsSpace ++ '{' :: (body ++ cl)),
              '{' :: (body ++ ['}']), r)
      | none => none
    | none => none
  | none => none

/-- One attempt of the tool-segment regex anchored at the head of `s`:
`(matchedText, rest)`.  The optional description group is tried first; if the
rest of the pattern then fails, the engine retries without it. -/
def tryToolSeg (s : List Char) : Option (List Char × List Char) :=
  match dropLit ("this.server.tool(".data) s with
  | some s1 =>
    match quotedM (s1.dropWhile isJsSpace) with
    | some (q1, name, q2, s3) =>
      match descPartM s3 with
      | some (dcons, _, s4) =>
        match schemaPartM s4 with
        | some (scons, _, r) =>
          some ("this.server.tool(".data ++ s1.takeWhile isJsSpace ++
                  q1 :: (name ++ q2 :: (dcons ++ scons)), r)
        | none =>
          match schemaPartM s3 with
          | some (scons, _, r) =>
            some ("this.server.tool(".data ++ s1.takeWhile isJsSpace ++
                    q1 :: (name ++ q2 :: scons), r)
          | none => none
      | none =>
        match schemaPartM s3 with
        | some (scons, _, r) =>
          some ("this.server.tool(".data ++ s1.takeWhile isJsSpace ++
                  q1 :: (name ++ q2 :: scons), r)
        | none => none
    | none => none
  | none => none

theorem closeTailM_rest_lt {s cl r : List Char} (h : closeTailM s = some (cl, r)) :
    r.length < s.length := by
  unfold closeTailM at h
  rcases h1 : dropLit ("\x7d,".data) s with _ | s2
  · rw [h1] at h; simp at h
  · rw [h1] at h; dsimp only at h
    rcases h2 : dropLit ("async".data) (s2.dropWhile isJsSpace) with _ | r'
    · rw [h2] at h; simp at h
    · rw [h2] at h; dsimp only at h
      simp only [Option.some.injEq, Prod.mk.injEq] at h
      obtain ⟨-, hr⟩ := h
      subst hr
      have e1 := dropLit_length_le h2
      have e2 := length_dropWhile_le' isJsSpace s2
      have e3 := dropLit_length_lt h1
      omega

theorem braceBodyGo_rest_lt {s body cl r : List Char}
    (h : braceBodyGo s = some (body, cl, r)) : r.length < s.length := by
  induction s generalizing body cl r with
  | nil => simp [braceBodyGo] at h
  | cons c cs ih =>
    unfold braceBodyGo at h
    rcases h1 : closeTailM cs with _ | ⟨cl', r'⟩
    · rw [h1] at h; dsimp only at h
      rcases h2 : braceBodyGo cs with _ | ⟨⟨body', cl'', r''⟩⟩
      · rw [h2] at h; simp at h
      · rw [h2] at h; dsimp only at h
        simp only [Option.some.injEq, Prod.mk.injEq] at h
        obtain ⟨-, -, hr⟩ := h
        subst hr
        have := ih h2
        simp only [List.length_cons]
        omega
    · rw [h1] at h; dsimp only at h
      simp only [Option.some.injEq, Prod.mk.injEq] at h
      obtain ⟨-, -, hr⟩ := h
      subst hr
      have := closeTailM_rest_lt h1
      simp only [List.length_cons]
      omega

theorem descPartM_rest_lt {s dcons d r : List Char}
    (h : descPartM s = some (dcons, d, r)) : r.length < s.length := by
  unfold descPartM at h
  rcases h1 : dropLit ([',']) (s.dropWhile isJsSpace) with _ | s2
  · rw [h1] at h; simp at h
  · rw [h1] at h; dsimp only at h
    rcases h2 : quotedM (s2.dropWhile isJsSpace) with _ | ⟨q1, d', q2, r'⟩
    · rw [h2] at h; simp at h
    · rw [h2] at h; dsimp only at h
      simp only [Option.some.injEq, Prod.mk.injEq] at h
      obtain ⟨-, -, hr⟩ := h
      subst hr
      have e1 := quotedM_rest_lt h2
      have e2 := length_dropWhile_le' isJsSpace s2
      have e3 := dropLit_length_lt h1
      have e4 := length_dropWhile_le' isJsSpace s
      omega

theorem schemaPartM_rest_lt {s scons sch r : List Char}
    (h : schemaPartM s = some (scons, sch, r)) : r.length < s.length := by
  unfold schemaPartM at h
  rcases h1 : dropLit ([',']) (s.dropWhile isJsSpace) with _ | s2
  · rw [h1] at h; simp at h
  · rw [h1] at h; dsimp only at h
    rcases h2 : dropLit (['{']) (s2.dropWhile isJsSpace) with _ | s4
    · rw [h2] at h; simp at h
    · rw [h2] at h; dsimp only at h
      rcases h3 : braceBodyGo s4 with _ | ⟨⟨body, cl, r'⟩⟩
      · rw [h3] at h; simp at h
      · rw [h3] at h; dsimp only at h
        simp only [Option.some.injEq, Prod.mk.injEq] at h
        obtain ⟨-, -, hr⟩ := h
        subst hr
        have e1 := braceBodyGo_rest_lt h3
        have e2 := dropLit_length_lt h2
        have e3 := length_dropWhile_le' isJsSpace s2
        have e4 := dropLit_length_lt h1
        have e5 := length_dropWhile_le' isJsSpace s
        omega

theorem tryToolSeg_rest_lt {s txt r : List Char}
    (h : tryToolSeg s = some (txt, r)) : r.length < s.length := by
  unfold tryToolSeg at h
  rcases h1 : dropLit ("this.server.tool(".data) s with _ | s1
  · rw [h1] at h; simp at h
  · rw [h1] at h; dsimp only at h
    rcases h2 : quotedM (s1.dropWhile isJsSpace) with _ | ⟨q1, name, q2, s3⟩
    · rw [h2] at h; simp at h
    · rw [h2] at h; dsimp only at h
      have e0 : s3.length < s.length := by
        have e1 := quotedM_rest_lt h2
        have e2 := length_dropWhile_le' isJsSpace s1
        have e3 := dropLit_length_lt h1
        omega
      rcases h3 : descPartM s3 with _ | ⟨⟨dcons, d, s4⟩⟩
      · rw [h3] at h; dsimp only at h
        rcases h4 : schemaPartM s3 with _ | ⟨⟨scons, sch, r'⟩⟩
        · rw [h4] at h; simp at h
        · rw [h4] at h; dsimp only at h
          simp only [Option.some.injEq, Prod.mk.injEq] at h
          obtain ⟨-, hr⟩ := h
          subst hr
          have := schemaPartM_rest_lt h4
          omega
      · rw [h3] at h; dsimp only at h
        rcases h4 : schemaPartM s4 with _ | ⟨⟨scons, sch, r'⟩⟩
        · rw [h4] at h; dsimp only at h
          rcases h5 : schemaPartM s3 with _ | ⟨⟨scons', sch', r''⟩⟩
          · rw [h5] at h; simp at h
          · rw [h5] at h; dsimp only at h
            simp only [Option.some.injEq, Prod.mk.injEq] at h
            obtain ⟨-, hr⟩ := h
            subst hr
            have := schemaPartM_rest_lt h5
            omega
        · rw [h4] at h; dsimp only at h
          simp only [Option.some.injEq, Prod.mk.injEq] at h
          obtain ⟨-, hr⟩ := h
          subst hr
          have e1 := schemaPartM_rest_lt h4
          have e2 := descPartM_rest_lt h3
          omega

/-- The `g`-flag exec loop of `extractToolSegments`, fuel-indexed. -/
def segScanF : Nat → List Char → List (List Char)
  | 0, _ => []
  | _ + 1, [] => []
  | fuel + 1, c :: cs =>
    match tryToolSeg (c :: cs) with
    | some (txt, rest) => txt :: segScanF fuel rest
    | none => segScanF fuel cs

/-- `extractToolSegments` of `docgen-acorn.ts`: every match of the
tool-declaration regex, in order. -/
def extractToolSegments (code : List Char) : List (List Char) :=
  segScanF code.length code

theorem segScanF_fuel_irrel :
    ∀ (f g : Nat) (s : List Char), s.length ≤ f → s.length ≤ g →
      segScanF f s = segScanF g s := by
  intro f
  induction f with
  | zero =>
    intro g s hf _
    have : s = [] := by
      cases s with
      | nil => rfl
      | cons c cs => simp at hf
    subst this
    cases g <;> simp [segScanF]
  | succ f ih =>
    intro g s hf hg
    cases s with
    | nil => cases g <;> simp [segScanF]
    | cons c cs =>
      cases g with
      | zero => simp at hg
      | succ g =>
        simp only [segScanF]
        rcases h : tryToolSeg (c :: cs) with _ | ⟨txt, rest⟩
        · exact ih g cs (by simp at hf; omega) (by simp at hg; omega)
        · have hlt := tryToolSeg_rest_lt h
          simp only [List.length_cons] at hlt hf hg
          dsimp only
          rw [ih g rest (by omega) (by omega)]

/-! ## Per-segment field extraction (`extractToolInfo`)

`extractToolInfo` re-parses each segment with three non-global regexes:
the name regex `this\.server\.tool\(\s*["']([^"']+)["']`, the description
regex `this\.server\.tool\(\s*["'][^"']+["']\s*,\s*["']([^"']+)["']` and the
schema regex `(?:["'][^"']*["']\s*,\s*)?({[\s\S]+?}),\s*async`; `match`
without the `g` flag returns the leftmost match. -/

/-- The name regex anchored at the head of `s`. -/
def tryNameMatch (s : List Char) : Option (List Char) :=
  match dropLit ("this.server.tool(".data) s with
  | some s1 =>
    match quotedM (s1.dropWhile isJsSpace) with
    | some (_, name, _, _) => some name
    | none => none
  | none => none

/-- Leftmost match of the name regex. -/
def nameFind : List Char → Option (List Char)
  | [] => none
  | c :: cs =>
    match tryNameMatch (c :: cs) with
    | some n => some n
    | none => nameFind cs

/-- The description regex anchored at the head of `s`. -/
def tryDescMatch (s : List Char) : Option (List Char) :=
  match dropLit ("this.server.tool(".data) s with
  | some s1 =>
    match quotedM (s1.dropWhile isJsSpace) with
    | some (_, _, _, s3) =>
      match dropLit ([',']) (s3.dropWhile isJsSpace) with
      | some s5 =>
        match quotedM (s5.dropWhile isJsSpace) with
        | some (_, d, _, _) => some d
        | none => none
      | none => none
    | none => none
  | none => none

/-- Leftmost match of the description regex. -/
def descFind : List Char → Option (List Char)
  | [] => none
  | c :: cs =>
    match tryDescMatch (c :: cs) with
    | some d => some d
    | none => descFind cs

/-- The optional prefix group `["']([^"']*)["']\s*,\s*` of the schema regex
(the quoted content may be empty here); returns the rest after the group. -/
def tryPrefixQuoted (s : List Char) : Option (List Char) :=
  match s with
  | c :: cs =>
    if isQuote c then
      match cs.dropWhile (fun x => !isQuote x) with
      | d :: ds =>
        if isQuote d then
          match dropLit ([',']) (ds.dropWhile isJsSpace) with
          | some s3 => some (s3.dropWhile isJsSpace)
          | none => none
        else none
      | [] => none
    else none
  | [] => none

/-- `({[\s\S]+?}),\s*async` anchored at the head of `s`: the captured schema
text (braces included). -/
def tryBraceAt (s : List Char) : Option (List Char) :=
  match dropLit (['{']) s with
  | some s1 =>
    match braceBodyGo s1 with
    | some (body, _, _) => some ('{' :: (body ++ ['}']))
    | none => none
  | none => none

/-- The schema regex anchored at the head of `s`: try the optional prefix
group first, backtrack to the bare brace pattern if the rest fails. -/
def trySchemaMatch (s : List Char) : Option (List Char) :=
  match tryPrefixQuoted s with
  | some s' =>
    match tryBraceAt s' with
    | some sch => some sch
    | none => tryBraceAt s
  | none => tryBraceAt s

/-- Leftmost match of the schema regex. -/
def schemaFind : List Char → Option (List Char)
  | [] => none
  | c :: cs =>
    match trySchemaMatch (c :: cs) with
    | some t => some t
    | none => schemaFind cs

/-- Default description text of `extractToolInfo`. -/
def autoDesc (n : List Char) : List Char :=
  "Auto-generated docs for \"".data ++ n ++ "\" (regex-extracted)".data

/-- The synthesized `Returns.description` text. -/
def resultDesc (n : List Char) : List Char :=
  "Result from tool \"".data ++ n ++ "\"".data

/-- The parse oracle: the `acorn` `parse` call on a program text, `none`
standing for a thrown parse error.  The parser is an external collaborator
of the generator. -/
def ParseOracle := List Char → Option (List Stmt)

/-- `extractToolInfo` of `docgen-acorn.ts`.  The schema text is re-wrapped as
`const schema = <text>` and parsed; on a parse error the regex fallback
handles the same schema text.  The function always produces a `MethodDoc`
(it never returns null in this revision). -/
def extractToolInfo (p : ParseOracle) (segment : List Char) : MethodDoc :=
  let toolName :=
    match nameFind segment with
    | some n => n
    | none => "unknown".data
  let toolDescription :=
    match descFind segment with
    | some d => d
    | none => autoDesc toolName
  let params :=
    match schemaFind segment with
    | none => []
    | some schemaText =>
      match p ("const schema = ".data ++ schemaText) with
      | some prog => extractSchemaParams prog
      | none => extractParamsWithRegex schemaText
  { name := toolName
    description := toolDescription
    params := params
    returns := some { type := "string".data,
                      description := some (resultDesc toolName) } }

/-- The per-file pipeline of `generateDocs`: segments, then one `MethodDoc`
per segment. -/
def extractTools (p : ParseOracle) (code : List Char) : List MethodDoc :=
  (extractToolSegments code).map (extractToolInfo p)

/-- The document written by `generateDocs` (the feature-complete revision):
written only when at least one tool was found, otherwise only an error is
reported and no document is produced. -/
def generateDocsPure (p : ParseOracle) (code : List Char) : Option DocsJson :=
  let tools := extractTools p code
  if tools.length > 0 then
    some [("MCPMathServer".data,
           { exported_as := "MCPMathServer".data
             description := some ("Detected tools from this.server.tool(...) calls".data)
             methods := tools
             statics := [] })]
  else none

/-! ## `addWorkerEntrypoint`

Operates on the parsed `docs.json` object: if the key `MCPMathServer` is
present and `WorkerEntrypoint` is not, append a `WorkerEntrypoint` entry
whose `methods` are those of `MCPMathServer`. -/

/-- First-match JSON-object key lookup. -/
def jlookup : List (List Char × EntrypointDoc) → List Char → Option EntrypointDoc
  | [], _ => none
  | (k, v) :: rest, key => if k = key then some v else jlookup rest key

/-- The derived `WorkerEntrypoint` entry built from the primary entry. -/
def workerEntryOf (primary : EntrypointDoc) : EntrypointDoc :=
  { exported_as := "default".data
    description := some ("Worker Entrypoint class extending MCPMathServer".data)
    methods := primary.methods
    statics := [] }

/-- `addWorkerEntrypoint` of `docgen-acorn.ts`, on the parsed document. -/
def addWorkerEntrypoint (doc : List (List Char × EntrypointDoc)) :
    List (List Char × EntrypointDoc) :=
  match jlookup doc ("MCPMathServer".data) with
  | some primary =>
    match jlookup doc ("WorkerEntrypoint".data) with
    | some _ => doc
    | none => doc ++ [("WorkerEntrypoint".data, workerEntryOf primary)]
  | none => doc

/-! ## The AST-first revision (`src/unnamed/part_002` / `part_003`)

Its `generateDocs` walks the whole-file AST for `this.server.tool(...)`
calls; the walker hands each `CallExpression` node to a handler.  The
handler slices the schema argument's source span out of the original code
and runs the naive `parseZodSchema` text parser on it. -/

/-- `parseZodSchema`'s regex `(\w+)\s*:\s*z\.(\w+)\(\)` anchored at the head
of `s`: `((name, type), rest)`. -/
def tryZodMatch (s : List Char) : Option ((List Char × List Char) × List Char) :=
  if (s.takeWhile isWordChar).isEmpty then none else
  match dropLit ([':']) ((s.dropWhile isWordChar).dropWhile isJsSpace) with
  | some s2 =>
    match dropLit ("z.".data) (s2.dropWhile isJsSpace) with
    | some s4 =>
      if (s4.takeWhile isWordChar).isEmpty then none else
      match dropLit ("()".data) (s4.dropWhile isWordChar) with
      | some s6 => some ((s.takeWhile isWordChar, s4.takeWhile isWordChar), s6)
      | none => none
    | none => none
  | none => none

theorem tryZodMatch_rest_lt {s : List Char} {nt : List Char × List Char}
    {r : List Char} (h : tryZodMatch s = some (nt, r)) : r.length < s.length := by
  unfold tryZodMatch at h
  by_cases h0 : (s.takeWhile isWordChar).isEmpty
  · simp [h0] at h
  · rw [if_neg h0] at h
    rcases h1 : dropLit ([':']) ((s.dropWhile isWordChar).dropWhile isJsSpace)
      with _ | s2
    · rw [h1] at h; simp at h
    · rw [h1] at h; dsimp only at h
      rcases h2 : dropLit ("z.".data) (s2.dropWhile isJsSpace) with _ | s4
      · rw [h2] at h; simp at h
      · rw [h2] at h; dsimp only at h
        by_cases h3 : (s4.takeWhile isWordChar).isEmpty
        · simp [h3] at h
        · rw [if_neg h3] at h
          rcases h4 : dropLit ("()".data) (s4.dropWhile isWordChar) with _ | s6
          · rw [h4] at h; simp at h
          · rw [h4] at h; dsimp only at h
            simp only [Option.some.injEq, Prod.mk.injEq] at h
            obtain ⟨-, hr⟩ := h
            subst hr
            have e1 := dropLit_length_le h4
            have e2 := length_dropWhile_le' isWordChar s4
            have e3 := dropLit_length_le h2
            have e4 := length_dropWhile_le' isJsSpace s2
            have e5 := dropLit_length_lt h1
            have e6 := length_dropWhile_le' isJsSpace (s.dropWhile isWordChar)
            have e7 := length_dropWhile_le' isWordChar s
            omega

/-- The `g`-flag exec loop of `parseZodSchema`, fuel-indexed. -/
def zodScanF : Nat → List Char → List Param
  | 0, _ => []
  | _ + 1, [] => []
  | fuel + 1, c :: cs =>
    match tryZodMatch (c :: cs) with
    | some ((n, t), rest) =>
      { name := n, type := t, description := none, optional := none } ::
        zodScanF fuel rest
    | none => zodScanF fuel cs

/-- `parseZodSchema` of the AST-first revision: `Param`s carry neither a
description nor an `optional` flag. -/
def parseZodSchema (schemaText : List Char) : List Param :=
  zodScanF schemaText.length schemaText

/-- An argument node as seen by the AST-first handler: the expression and
the node's source span (`start`/`end`, absent values defaulting to 0 via
`?? 0`). -/
structure ANode where
  expr : JExpr
  startPos : Option Nat := none
  endPos : Option Nat := none

/-- The callee-shape test of the AST-first revision:
`this.server.tool` — a member of a member of `this`, with property names
`server` and `tool` (a non-identifier property has no `.name`, failing the
comparison). -/
def calleeIsToolPattern : JExpr → Bool
  | JExpr.member (JExpr.member JExpr.thisE p1) p2 =>
    propIsIdentNamed p1 ("server".data) && propIsIdentNamed p2 ("tool".data)
  | _ => false

/-- `code.substring(start, end)` — JS `substring` swaps its arguments when
`start > end`. -/
def jsSubstring (code : List Char) (a b : Nat) : List Char :=
  (code.take (max a b)).drop (min a b)

/-- The `CallExpression` handler of the AST-first `generateDocs`: `none`
when the node is not a tool call or has fewer than three arguments (the
walker just returns, pushing nothing). -/
def processToolCallNode (code : List Char) (callee : JExpr) (args : List ANode) :
    Option MethodDoc :=
  if calleeIsToolPattern callee then
    if args.length < 3 then none
    else
      let toolName :=
        match args.head? with
        | some a =>
          match a.expr with
          | JExpr.lit (JsVal.str s) => s
          | _ => "unknownTool".data
        | none => "unknownTool".data
      let schemaText :=
        match args.get? 1 with
        | some a => jsSubstring code (a.startPos.getD 0) (a.endPos.getD 0)
        | none => jsSubstring code 0 0
      some { name := toolName
             description := "Auto-generated docs for \"".data ++ toolName ++ "\"".data
             params := parseZodSchema schemaText
             returns := some { type := "string".data,
                               description := some (resultDesc toolName) } }
  else none

/-! ## Claim C2 — the synthesized `ReturnDescriptor` -/

/-- C2: every discovered tool's `returns` field is exactly
`{ type: "string", description: "Result from tool \"<name>\"" }` — a fixed
synthesized policy, never derived from the callback and never null: in the
feature-complete revision (`extractToolInfo`, first conjunct) and in the
AST-first revision's handler (`processToolCallNode`, second conjunct). -/
theorem returns_always_fixed_policy :
    (∀ (p : ParseOracle) (seg : List Char),
      (extractToolInfo p seg).returns =
        some { type := "string".data,
               description := some (resultDesc (extractToolInfo p seg).name) }) ∧
    (∀ (code : List Char) (callee : JExpr) (args : List ANode) (d : MethodDoc),
      processToolCallNode code callee args = some d →
        d.returns =
          some { type := "string".data,
                 description := some (resultDesc d.name) }) := by
  constructor
  · intro p seg
    rfl
  · intro code callee args d h
    unfold processToolCallNode at h
    by_cases h1 : calleeIsToolPattern callee
    · rw [if_pos h1] at h
      by_cases h2 : args.length < 3
      · rw [if_pos h2] at h; simp at h
      · rw [if_neg h2] at h
        simp only [Option.some.injEq] at h
        subst h
        rfl
    · rw [if_neg h1] at h; simp at h

/-- Witness for C2's second conjunct at a concrete tool-call node. -/
def c2Callee : JExpr :=
  JExpr.member (JExpr.member JExpr.thisE (JExpr.ident ("server".data)))
    (JExpr.ident ("tool".data))

def c2Args : List ANode :=
  [⟨JExpr.lit (JsVal.str ("add".data)), some 17, some 22⟩,
   ⟨JExpr.object [PropNode.property (JExpr.ident ("a".data))
      (JExpr.call (JExpr.member (JExpr.ident ("z".data))
        (JExpr.ident ("number".data))) [])], some 24, some 41⟩,
   ⟨JExpr.otherE, some 43, some 60⟩]

def c2Code : List Char :=
  "this.server.tool(\"add\", { a: z.number() }, async (x) => x + 1)".data

def c2Doc : MethodDoc :=
  { name := "add".data
    description := "Auto-generated docs for \"add\"".data
    params := [{ name := "a".data, type := "number".data }]
    returns := some { type := "string".data,
                      description := some (resultDesc ("add".data)) } }

theorem returns_always_fixed_policy_witness :
    c2Doc.returns = some { type := "string".data,
                           description := some (resultDesc c2Doc.name) } :=
  returns_always_fixed_policy.2 c2Code c2Callee c2Args c2Doc (by decide)

/-! ## Claim C8 — determinism of the generator -/

/-- C8: the generator is deterministic: the embedded pipeline is a pure
function of the input source text (and the fixed parse collaborator), so two
runs on byte-identical input produce identical output documents; no state is
carried between runs — each run recomputes the whole document from the text
alone. -/
theorem generator_deterministic (p : ParseOracle) (code code' : List Char)
    (h : code = code') :
    generateDocsPure p code = generateDocsPure p code' := by
  rw [h]

def c8Code : List Char :=
  "this.server.tool(\"add\", { a: z.number() }, async (x) => x)".data

theorem generator_deterministic_witness :
    generateDocsPure (fun _ => none) c8Code =
      generateDocsPure (fun _ => none) c8Code :=
  generator_deterministic (fun _ => none) c8Code c8Code rfl

/-! ## Claim C5 — `addWorkerEntrypoint` is additive and idempotent -/

theorem jlookup_append_some {l1 l2 : List (List Char × EntrypointDoc)}
    {key : List Char} {v : EntrypointDoc} (h : jlookup l1 key = some v) :
    jlookup (l1 ++ l2) key = some v := by
  induction l1 with
  | nil => simp [jlookup] at h
  | cons kv rest ih =>
    by_cases hk : kv.1 = key
    · simp [jlookup, hk] at h ⊢
      exact h
    · simp [jlookup, hk] at h ⊢
      exact ih h

theorem jlookup_append_none {l1 l2 : List (List Char × EntrypointDoc)}
    {key : List Char} (h : jlookup l1 key = none) :
    jlookup (l1 ++ l2) key = jlookup l2 key := by
  induction l1 with
  | nil => simp
  | cons kv rest ih =>
    by_cases hk : kv.1 = key
    · simp [jlookup, hk] at h
    · simp [jlookup, hk] at h ⊢
      exact ih h

/-- C5: `addWorkerEntrypoint` is purely additive and idempotent.  On a
document that has the primary key and no derived key it appends exactly one
entry, whose `methods` equal the primary entry's `methods` (first conjunct);
applying the step twice always equals applying it once — the existing-key
check prevents a third entry or duplication (second conjunct). -/
theorem addWorkerEntrypoint_additive_idempotent :
    (∀ (doc : List (List Char × EntrypointDoc)) (primary : EntrypointDoc),
      jlookup doc ("MCPMathServer".data) = some primary →
      jlookup doc ("WorkerEntrypoint".data) = none →
      addWorkerEntrypoint doc =
        doc ++ [("WorkerEntrypoint".data, workerEntryOf primary)] ∧
      (workerEntryOf primary).methods = primary.methods) ∧
    (∀ doc : List (List Char × EntrypointDoc),
      addWorkerEntrypoint (addWorkerEntrypoint doc) = addWorkerEntrypoint doc) := by
  constructor
  · intro doc primary h1 h2
    constructor
    · unfold addWorkerEntrypoint
      rw [h1, h2]
    · rfl
  · intro doc
    unfold addWorkerEntrypoint
    rcases h1 : jlookup doc ("MCPMathServer".data) with _ | primary
    · rw [h1]
    · rcases h2 : jlookup doc ("WorkerEntrypoint".data) with _ | we
      · have h1' : jlookup (doc ++ [("WorkerEntrypoint".data, workerEntryOf primary)])
            ("MCPMathServer".data) = some primary := jlookup_append_some h1
        have h2' : jlookup (doc ++ [("WorkerEntrypoint".data, workerEntryOf primary)])
            ("WorkerEntrypoint".data) = some (workerEntryOf primary) := by
          rw [jlookup_append_none h2]
          simp [jlookup]
        rw [h1', h2']
      · rw [h1, h2]

def c5Doc : MethodDoc :=
  { name := "subtract".data
    description := "Subtracts the second number from the first".data
    params := [{ name := "a".data, type := "number".data, optional := some false },
               { name := "b".data, type := "number".data, optional := some false }]
    returns := some { type := "string".data,
                      description := some (resultDesc ("subtract".data)) } }

def c5PrimaryEntry : EntrypointDoc :=
  { exported_as := "MCPMathServer".data
    description := some ("Detected tools from this.server.tool(...) calls".data)
    methods := [c5Doc]
    statics := [] }

theorem addWorkerEntrypoint_additive_idempotent_witness :
    addWorkerEntrypoint [("MCPMathServer".data, c5PrimaryEntry)] =
        [("MCPMathServer".data, c5PrimaryEntry)] ++
          [("WorkerEntrypoint".data, workerEntryOf c5PrimaryEntry)] ∧
      (workerEntryOf c5PrimaryEntry).methods = c5PrimaryEntry.methods :=
  addWorkerEntrypoint_additive_idempotent.1
    [("MCPMathServer".data, c5PrimaryEntry)] c5PrimaryEntry
    (by decide) (by decide)

/-! ## Claim C7 — the fallback extractor is total -/

/-- Claim-side predicate: some position of `s` matches the parameter
pattern. -/
def anyParamMatchPos : List Char → Bool
  | [] => false
  | c :: cs => (tryParamMatch (c :: cs)).isSome || anyParamMatchPos cs

theorem paramScanF_nil_iff :
    ∀ (fuel : Nat) (s : List Char), s.length ≤ fuel →
      (paramScanF fuel s = [] ↔ anyParamMatchPos s = false) := by
  intro fuel
  induction fuel with
  | zero =>
    intro s hf
    have : s = [] := by
      cases s with
      | nil => rfl
      | cons c cs => simp at hf
    subst this
    simp [paramScanF, anyParamMatchPos]
  | succ fuel ih =>
    intro s hf
    cases s with
    | nil => simp [paramScanF, anyParamMatchPos]
    | cons c cs =>
      simp only [paramScanF, anyParamMatchPos]
      rcases h : tryParamMatch (c :: cs) with _ | ⟨m, rest⟩
      · simp only [Option.isSome_none, Bool.false_or]
        exact ih cs (by simp at hf; omega)
      · simp

/-- C7: the fallback text extractor `extractParamsWithRegex` is a total
function on strings: it is defined for every input (a terminating, pure Lean
function — the embedding has no exceptions and no side effects to model), and
it returns the empty list exactly when no position of the input matches the
parameter pattern, rather than failing. -/
theorem extractParamsWithRegex_total (s : List Char) :
    extractParamsWithRegex s = [] ↔ anyParamMatchPos s = false :=
  paramScanF_nil_iff s.length s (Nat.le_refl _)

/-! ## Claim C1 — `.optional()` detection and modifier order -/

/-- C1 counterexample: in the text-pattern fallback path the claim fails.
The schema text `{ a: z.string().describe("x").optional() }` marks `a`
optional after the base type call (the text contains `.optional()`), yet the
fallback extractor reports `optional = false`, because its pattern only
consumes an `.optional()` written between `z.<type>()` and `.describe(...)`,
and `match[0]` therefore does not contain `.optional()`. -/
theorem optional_after_describe_missed_by_fallback :
    extractParamsWithRegex ("\x7b a: z.string().describe(\"x\").optional() \x7d".data) =
      [{ name := "a".data, type := "string".data,
         description := some (JsVal.str ("x".data)), optional := some false }] ∧
    containsSub (".optional()".data)
      ("\x7b a: z.string().describe(\"x\").optional() \x7d".data) = true := by
  constructor
  · decide
  · decide

/-- C1 as amended: (1) on the structural (AST) path the claim holds in full:
the produced param is marked optional exactly when the value's method chain
contains `.optional()` anywhere, regardless of the order of modifiers;
(2) on the text-pattern fallback path, order matters: `.optional()` directly
after the base type call is detected (second conjunct) but `.optional()`
after `.describe(...)` is not (third conjunct). -/
theorem optional_modifier_detection_amended :
    (∀ (pname : List Char) (v : JExpr),
      (analyzeValue pname v).optional = some (chainHasOptional v)) ∧
    (extractParamsWithRegex
        ("\x7b a: z.string().optional().describe(\"x\") \x7d".data)).map Param.optional =
      [some true] ∧
    (extractParamsWithRegex
        ("\x7b a: z.string().describe(\"x\").optional() \x7d".data)).map Param.optional =
      [some false] := by
  refine ⟨?_, by decide, by decide⟩
  intro pname v
  cases v with
  | call callee args =>
    simp [analyzeValue, scanChain_fst]
  | ident n => simp [analyzeValue, chainHasOptional]
  | lit w => simp [analyzeValue, chainHasOptional]
  | thisE => simp [analyzeValue, chainHasOptional]
  | member o p => simp [analyzeValue, chainHasOptional]
  | object ps => simp [analyzeValue, chainHasOptional]
  | otherE => simp [analyzeValue, chainHasOptional]

/-! ## Claim C4 — base-type recovery through modifier chains -/

/-- Wrap an expression in a chain of modifier calls (outermost first):
`wrapMods [(p1,a1),(p2,a2)] e` is `e.p2(a2).p1(a1)` as an AST. -/
def wrapMods : List (JExpr × List JExpr) → JExpr → JExpr
  | [], e => e
  | (p, args) :: ms, e => JExpr.call (JExpr.member (wrapMods ms e) p) args

/-- A base builder call `z.<t>(<args>)`. -/
def zCall (t : List Char) (args : List JExpr) : JExpr :=
  JExpr.call (JExpr.member (JExpr.ident ("z".data)) (JExpr.ident t)) args

/-- The innermost call is `z.<ident>(...)` with `z` an identifier. -/
def isZBase : JExpr → Bool
  | JExpr.call (JExpr.member (JExpr.ident zn) (JExpr.ident _)) _ => zn = "z".data
  | _ => false

theorem wrapMods_call_shape (mods : List (JExpr × List JExpr)) (c : JExpr)
    (a : List JExpr) :
    ∃ c' a', wrapMods mods (JExpr.call c a) = JExpr.call c' a' := by
  cases mods with
  | nil => exact ⟨c, a, rfl⟩
  | cons m ms =>
    exact ⟨JExpr.member (wrapMods ms (JExpr.call c a)) m.1, m.2, rfl⟩

theorem walkToBase_wrap (mods : List (JExpr × List JExpr)) (c : JExpr)
    (a : List JExpr) :
    walkToBase (wrapMods mods (JExpr.call c a)) = walkToBase (JExpr.call c a) := by
  induction mods with
  | nil => rfl
  | cons m ms ih =>
    obtain ⟨c', a', hshape⟩ := wrapMods_call_shape ms c a
    show walkToBase (JExpr.call (JExpr.member (wrapMods ms (JExpr.call c a)) m.1) m.2) =
      walkToBase (JExpr.call c a)
    rw [hshape] at ih ⊢
    rw [← ih]
    rfl

/-- C4: base-type recovery walks past any number of chained modifier calls —
recognized or not — and returns the method name of the innermost spine call
when that call is `z.<type>(...)` (first conjunct); when the innermost spine
call is not such a call, the recovered type is the sentinel `unknown`
(second conjunct).  Unrecognized modifiers never fail: `analyzeValue` is
total and the modifiers `mods` are arbitrary expressions. -/
theorem basetype_walks_past_modifiers :
    (∀ (pname t : List Char) (mods : List (JExpr × List JExpr)) (args : List JExpr),
      (analyzeValue pname (wrapMods mods (zCall t args))).type = t) ∧
    (∀ (pname : List Char) (mods : List (JExpr × List JExpr)) (c : JExpr)
        (a : List JExpr),
      walkToBase (JExpr.call c a) = JExpr.call c a →
      isZBase (JExpr.call c a) = false →
      (analyzeValue pname (wrapMods mods (JExpr.call c a))).type = "unknown".data) := by
  have hval : ∀ (pname : List Char) (mods : List (JExpr × List JExpr))
      (c : JExpr) (a : List JExpr),
      (analyzeValue pname (wrapMods mods (JExpr.call c a))).type =
        baseTypeOf (wrapMods mods (JExpr.call c a)) := by
    intro pname mods c a
    obtain ⟨c', a', hs⟩ := wrapMods_call_shape mods c a
    rw [hs]
    rfl
  constructor
  · intro pname t mods args
    have hz : zCall t args =
        JExpr.call (JExpr.member (JExpr.ident ("z".data)) (JExpr.ident t)) args := rfl
    rw [hz, hval]
    unfold baseTypeOf
    rw [walkToBase_wrap]
    simp [walkToBase]
  · intro pname mods c a hw hz
    rw [hval]
    unfold baseTypeOf
    rw [walkToBase_wrap, hw]
    cases c with
    | member obj p =>
      cases obj with
      | ident zn =>
        cases p with
        | ident t =>
          simp only [isZBase, decide_eq_false_iff_not] at hz
          simp [hz]
        | lit v => rfl
        | thisE => rfl
        | member o2 p2 => rfl
        | call c2 a2 => rfl
        | object ps => rfl
        | otherE => rfl
      | lit v => rfl
      | thisE => rfl
      | member o2 p2 => rfl
      | call c2 a2 => rfl
      | object ps => rfl
      | otherE => rfl
    | ident n => rfl
    | lit v => rfl
    | thisE => rfl
    | call c2 a2 => rfl
    | object ps => rfl
    | otherE => rfl

theorem basetype_walks_past_modifiers_witness :
    (analyzeValue ("a".data)
        (wrapMods
          [(JExpr.ident ("optional".data), []),
           (JExpr.ident ("describe".data), [JExpr.lit (JsVal.str ("x".data))]),
           (JExpr.ident ("nonstandardModifier".data), [])]
          (zCall ("number".data) []))).type = "number".data ∧
    (analyzeValue ("a".data)
        (wrapMods [(JExpr.ident ("optional".data), [])]
          (JExpr.call (JExpr.member (JExpr.ident ("w".data))
            (JExpr.ident ("string".data))) []))).type = "unknown".data :=
  ⟨basetype_walks_past_modifiers.1 ("a".data) ("number".data) _ [],
   basetype_walks_past_modifiers.2 ("a".data) _ _ [] rfl (by decide)⟩

/-! ## Claim C6 — schema-parse failure is local to one tool -/

/-- C6: the parse oracle influences only the parameter extraction of the
individual tool whose schema it is given.  For any two parse behaviours
`p`, `q` (e.g. `q` failing on one tool's schema where `p` succeeds):
the number of extracted tools is the same — so a structural parse failure
never reduces the tool count below what the text-pattern fallback alone
(`q := fun _ => none`) would find — and the output at every index whose
segment's schema text `p` and `q` treat alike is identical, so all other
tools are extracted exactly as without the failure; the run never aborts. -/
theorem schema_parse_failure_is_local :
    ∀ (p q : ParseOracle) (code : List Char),
      (extractTools p code).length = (extractTools q code).length ∧
      ∀ (i : Nat) (seg : List Char),
        (extractToolSegments code)[i]? = some seg →
        (∀ t, schemaFind seg = some t →
          p ("const schema = ".data ++ t) = q ("const schema = ".data ++ t)) →
        (extractTools p code)[i]? = (extractTools q code)[i]? := by
  intro p q code
  constructor
  · simp [extractTools]
  · intro i seg hseg hagree
    have hinfo : extractToolInfo p seg = extractToolInfo q seg := by
      unfold extractToolInfo
      rcases hs : schemaFind seg with _ | t
      · rfl
      · dsimp only
        rw [hagree t hs]
    simp [extractTools, List.getElem?_map, hseg, hinfo]

def c6Code : List Char :=
  ("this.server.tool(\"add\", { a: z.number() }, async (x) => x); " ++
   "this.server.tool(\"mul\", { b: z.string() }, async (y) => y)").data

/-- A parse behaviour that fails on the first tool's schema but parses the
second tool's schema. -/
def c6Oracle : ParseOracle := fun s =>
  if s = ("const schema = { b: z.string() }".data) then
    some [Stmt.varDecl [⟨some (JExpr.object
      [PropNode.property (JExpr.ident ("b".data))
        (JExpr.call (JExpr.member (JExpr.ident ("z".data))
          (JExpr.ident ("string".data))) [])])⟩]]
  else none

theorem schema_parse_failure_is_local_witness :
    (extractTools c6Oracle c6Code).length =
        (extractTools (fun _ => none) c6Code).length ∧
      (extractTools c6Oracle c6Code)[0]? =
        (extractTools (fun _ => none) c6Code)[0]? := by
  have h := schema_parse_failure_is_local c6Oracle (fun _ => none) c6Code
  refine ⟨h.1, ?_⟩
  refine h.2 0 ("this.server.tool(\"add\", { a: z.number() }, async".data)
    (by decide) ?_
  intro t ht
  have ht' : t = "{ a: z.number() }".data := by
    have hcomp : schemaFind
        ("this.server.tool(\"add\", { a: z.number() }, async".data) =
        some ("{ a: z.number() }".data) := by decide
    rw [hcomp] at ht
    exact (Option.some.injEq _ _).mp ht.symm
  subst ht'
  rfl

/-! ## Claim C9 — tool names are never null, and the sentinel defaults -/

theorem quotedM_content_ne_nil {s : List Char} {a b : Char} {c r : List Char}
    (h : quotedM s = some (a, c, b, r)) : c ≠ [] := by
  cases s with
  | nil => simp [quotedM] at h
  | cons x xs =>
    by_cases hx : isQuote x
    · simp only [quotedM, hx, if_true] at h
      rcases hd : xs.dropWhile (fun y => !isQuote y) with _ | ⟨d, ds⟩ <;> rw [hd] at h
      · simp at h
      · by_cases hq : isQuote d
        · by_cases he : (xs.takeWhile (fun y => !isQuote y)).isEmpty
          · simp [hq, he] at h
          · simp [hq, he] at h
            obtain ⟨-, hc, -, -⟩ := h
            subst hc
            exact fun hnil => he (by rw [hnil]; rfl)
        · simp [hq] at h
    · simp [quotedM, hx] at h

theorem tryNameMatch_ne_nil {s n : List Char} (h : tryNameMatch s = some n) :
    n ≠ [] := by
  unfold tryNameMatch at h
  rcases h1 : dropLit ("this.server.tool(".data) s with _ | s1
  · rw [h1] at h; simp at h
  · rw [h1] at h; dsimp only at h
    rcases h2 : quotedM (s1.dropWhile isJsSpace) with _ | ⟨q1, name, q2, r⟩
    · rw [h2] at h; simp at h
    · rw [h2] at h; dsimp only at h
      simp only [Option.some.injEq] at h
      subst h
      exact quotedM_content_ne_nil h2

theorem nameFind_ne_nil {s n : List Char} (h : nameFind s = some n) : n ≠ [] := by
  induction s with
  | nil => simp [nameFind] at h
  | cons c cs ih =>
    unfold nameFind at h
    rcases h1 : tryNameMatch (c :: cs) with _ | n'
    · rw [h1] at h; dsimp only at h
      exact ih h
    · rw [h1] at h; dsimp only at h
      simp only [Option.some.injEq] at h
      subst h
      exact tryNameMatch_ne_nil h1

/-- C9 counterexample: the AST-first revision assembles a ToolRecord with an
*empty* name for the syntactically valid registration
`this.server.tool("", { a: z.number() }, async () => {})`: the first
argument is a string literal, so its value — the empty string — is taken as
the name, contradicting the claimed "never empty" invariant. -/
def c9CexCode : List Char :=
  "this.server.tool(\"\", { a: z.number() }, async () => {})".data

def c9Callee : JExpr :=
  JExpr.member (JExpr.member JExpr.thisE (JExpr.ident ("server".data)))
    (JExpr.ident ("tool".data))

def c9CexArgs : List ANode :=
  [⟨JExpr.lit (JsVal.str []), some 17, some 19⟩,
   ⟨JExpr.object [PropNode.property (JExpr.ident ("a".data))
      (JExpr.call (JExpr.member (JExpr.ident ("z".data))
        (JExpr.ident ("number".data))) [])], some 21, some 38⟩,
   ⟨JExpr.otherE, some 40, some 55⟩]

theorem empty_name_tool_record_exists :
    (processToolCallNode c9CexCode c9Callee c9CexArgs).map MethodDoc.name =
      some [] := by
  decide

/-- C9 as amended: a ToolRecord's name is never null, and: in the
regex-based feature-complete revision it is always non-empty — the literal
value when the name pattern matches (its capture needs at least one
character) and the sentinel `unknown` otherwise (first conjunct); in the
AST-first revision it is the sentinel `unknownTool` when the first argument
is not a string literal, and otherwise exactly the literal's value — which
may be the empty string (second conjunct). -/
theorem tool_name_sentinels_amended :
    (∀ (p : ParseOracle) (seg : List Char), (extractToolInfo p seg).name ≠ []) ∧
    (∀ (code : List Char) (callee : JExpr) (args : List ANode) (d : MethodDoc),
      processToolCallNode code callee args = some d →
      d.name = "unknownTool".data ∨
        ∃ a s, args.head? = some a ∧ a.expr = JExpr.lit (JsVal.str s) ∧
          d.name = s) := by
  constructor
  · intro p seg
    show (match nameFind seg with
          | some n => n
          | none => "unknown".data) ≠ []
    rcases h : nameFind seg with _ | n
    · decide
    · exact nameFind_ne_nil h
  · intro code callee args d h
    unfold processToolCallNode at h
    by_cases h1 : calleeIsToolPattern callee
    · rw [if_pos h1] at h
      by_cases h2 : args.length < 3
      · rw [if_pos h2] at h; simp at h
      · rw [if_neg h2] at h
        simp only [Option.some.injEq] at h
        subst h
        cases args with
        | nil => simp at h2
        | cons a rest =>
          dsimp only [List.head?]
          cases he : a.expr with
          | ident n => left; rfl
          | lit v =>
            cases v with
            | str s => exact Or.inr ⟨a, s, rfl, he, rfl⟩
            | num nn => left; rfl
            | boolean b => left; rfl
            | null => left; rfl
          | thisE => left; rfl
          | member o pr => left; rfl
          | call c2 a2 => left; rfl
          | object ps => left; rfl
          | otherE => left; rfl
    · rw [if_neg h1] at h; simp at h

def c9WitArgs : List ANode :=
  [⟨JExpr.lit (JsVal.str ("add".data)), some 17, some 22⟩,
   ⟨JExpr.object [], some 24, some 41⟩,
   ⟨JExpr.otherE, some 43, some 58⟩]

def c9WitDoc : MethodDoc :=
  { name := "add".data
    description := "Auto-generated docs for \"add\"".data
    params := [{ name := "a".data, type := "number".data }]
    returns := some { type := "string".data,
                      description := some (resultDesc ("add".data)) } }

def c9WitCode : List Char :=
  "this.server.tool(\"add\", { a: z.number() }, async (x) => x)".data

theorem tool_name_sentinels_amended_witness :
    (extractToolInfo (fun _ => none) c9WitCode).name ≠ [] ∧
    (c9WitDoc.name = "unknownTool".data ∨
      ∃ a s, c9WitArgs.head? = some a ∧ a.expr = JExpr.lit (JsVal.str s) ∧
        c9WitDoc.name = s) :=
  ⟨tool_name_sentinels_amended.1 (fun _ => none) c9WitCode,
   tool_name_sentinels_amended.2 c9WitCode c9Callee c9WitArgs c9WitDoc (by decide)⟩

/-! ## Claim C10 — discovery requires `, async` after the schema object -/

theorem closeTailM_shape {s cl r : List Char} (h : closeTailM s = some (cl, r)) :
    ∃ ws, (∀ c ∈ ws, isJsSpace c = true) ∧
      cl = '}' :: ',' :: (ws ++ "async".data) := by
  unfold closeTailM at h
  rcases h1 : dropLit ("\x7d,".data) s with _ | s2
  · rw [h1] at h; simp at h
  · rw [h1] at h; dsimp only at h
    rcases h2 : dropLit ("async".data) (s2.dropWhile isJsSpace) with _ | r'
    · rw [h2] at h; simp at h
    · rw [h2] at h; dsimp only at h
      simp only [Option.some.injEq, Prod.mk.injEq] at h
      obtain ⟨hcl, -⟩ := h
      refine ⟨s2.takeWhile isJsSpace, ?_, ?_⟩
      · intro c hc
        exact List.mem_takeWhile_imp hc
      · rw [← hcl]; rfl

theorem braceBodyGo_cl_shape {s body cl r : List Char}
    (h : braceBodyGo s = some (body, cl, r)) :
    ∃ ws, (∀ c ∈ ws, isJsSpace c = true) ∧
      cl = '}' :: ',' :: (ws ++ "async".data) := by
  induction s generalizing body cl r with
  | nil => simp [braceBodyGo] at h
  | cons c cs ih =>
    unfold braceBodyGo at h
    rcases h1 : closeTailM cs with _ | ⟨cl', r'⟩
    · rw [h1] at h; dsimp only at h
      rcases h2 : braceBodyGo cs with _ | ⟨⟨body', cl'', r''⟩⟩
      · rw [h2] at h; simp at h
      · rw [h2] at h; dsimp only at h
        simp only [Option.some.injEq, Prod.mk.injEq] at h
        obtain ⟨-, hcl, -⟩ := h
        subst hcl
        exact ih h2
    · rw [h1] at h; dsimp only at h
      simp only [Option.some.injEq, Prod.mk.injEq] at h
      obtain ⟨-, hcl, -⟩ := h
      subst hcl
      exact closeTailM_shape h1

theorem schemaPartM_cons_shape {s scons sch r : List Char}
    (h : schemaPartM s = some (scons, sch, r)) :
    ∃ pre ws, (∀ c ∈ ws, isJsSpace c = true) ∧
      scons = pre ++ '}' :: ',' :: (ws ++ "async".data) := by
  unfold schemaPartM at h
  rcases h1 : dropLit ([',']) (s.dropWhile isJsSpace) with _ | s2
  · rw [h1] at h; simp at h
  · rw [h1] at h; dsimp only at h
    rcases h2 : dropLit (['{']) (s2.dropWhile isJsSpace) with _ | s4
    · rw [h2] at h; simp at h
    · rw [h2] at h; dsimp only at h
      rcases h3 : braceBodyGo s4 with _ | ⟨⟨body, cl, r'⟩⟩
      · rw [h3] at h; simp at h
      · rw [h3] at h; dsimp only at h
        simp only [Option.some.injEq, Prod.mk.injEq] at h
        obtain ⟨hscons, -, -⟩ := h
        obtain ⟨ws, hws, hcl⟩ := braceBodyGo_cl_shape h3
        subst hcl
        refine ⟨s.takeWhile isJsSpace ++ ',' ::
          (s2.takeWhile isJsSpace ++ '{' :: body), ws, hws, ?_⟩
        rw [← hscons]
        simp [List.append_assoc]

theorem tryToolSeg_txt_shape {s txt r : List Char}
    (h : tryToolSeg s = some (txt, r)) :
    ∃ pre ws, (∀ c ∈ ws, isJsSpace c = true) ∧
      txt = pre ++ '}' :: ',' :: (ws ++ "async".data) := by
  unfold tryToolSeg at h
  rcases h1 : dropLit ("this.server.tool(".data) s with _ | s1
  · rw [h1] at h; simp at h
  · rw [h1] at h; dsimp only at h
    rcases h2 : quotedM (s1.dropWhile isJsSpace) with _ | ⟨q1, name, q2, s3⟩
    · rw [h2] at h; simp at h
    · rw [h2] at h; dsimp only at h
      rcases h3 : descPartM s3 with _ | ⟨⟨dcons, d, s4⟩⟩
      · rw [h3] at h; dsimp only at h
        rcases h4 : schemaPartM s3 with _ | ⟨⟨scons, sch, r'⟩⟩
        · rw [h4] at h; simp at h
        · rw [h4] at h; dsimp only at h
          simp only [Option.some.injEq, Prod.mk.injEq] at h
          obtain ⟨htxt, -⟩ := h
          obtain ⟨pre, ws, hws, hscons⟩ := schemaPartM_cons_shape h4
          subst hscons
          refine ⟨"this.server.tool(".data ++ s1.takeWhile isJsSpace ++
            q1 :: (name ++ q2 :: pre), ws, hws, ?_⟩
          rw [← htxt]
          simp [List.append_assoc]
      · rw [h3] at h; dsimp only at h
        rcases h4 : schemaPartM s4 with _ | ⟨⟨scons, sch, r'⟩⟩
        · rw [h4] at h; dsimp only at h
          rcases h5 : schemaPartM s3 with _ | ⟨⟨scons', sch', r''⟩⟩
          · rw [h5] at h; simp at h
          · rw [h5] at h; dsimp only at h
            simp only [Option.some.injEq, Prod.mk.injEq] at h
            obtain ⟨htxt, -⟩ := h
            obtain ⟨pre, ws, hws, hscons⟩ := schemaPartM_cons_shape h5
            subst hscons
            refine ⟨"this.server.tool(".data ++ s1.takeWhile isJsSpace ++
              q1 :: (name ++ q2 :: pre), ws, hws, ?_⟩
            rw [← htxt]
            simp [List.append_assoc]
        · rw [h4] at h; dsimp only at h
          simp only [Option.some.injEq, Prod.mk.injEq] at h
          obtain ⟨htxt, -⟩ := h
          obtain ⟨pre, ws, hws, hscons⟩ := schemaPartM_cons_shape h4
          subst hscons
          refine ⟨"this.server.tool(".data ++ s1.takeWhile isJsSpace ++
            q1 :: (name ++ q2 :: (dcons ++ pre)), ws, hws, ?_⟩
          rw [← htxt]
          simp [List.append_assoc]

theorem segScanF_mem {fuel : Nat} {s seg : List Char}
    (h : seg ∈ segScanF fuel s) :
    ∃ s' r, tryToolSeg s' = some (seg, r) := by
  induction fuel generalizing s with
  | zero => simp [segScanF] at h
  | succ fuel ih =>
    cases s with
    | nil => simp [segScanF] at h
    | cons c cs =>
      unfold segScanF at h
      rcases h1 : tryToolSeg (c :: cs) with _ | ⟨txt, rest⟩
      · rw [h1] at h; dsimp only at h
        exact ih h
      · rw [h1] at h; dsimp only at h
        rcases List.mem_cons.mp h with heq | hmem
        · subst heq
          exact ⟨c :: cs, rest, h1⟩
        · exact ih hmem

/-- C10 counterexample: a registration whose callback is the plain
identifier `asyncHandler` — not introduced by the `async` keyword — is
nevertheless discovered, because the locator regex only requires the five
characters `async` after the comma, not the token: the claim's "absent from
the output document" fails at this input. -/
def c10CexCode : List Char :=
  "this.server.tool(\"x\", { a: z.number() }, asyncHandler)".data

theorem identifier_callback_still_discovered :
    (extractTools (fun _ => none) c10CexCode).map MethodDoc.name =
      ["x".data] := by
  decide

/-- C10 as amended: a tool-registration call is discovered only if the text
immediately following the schema object literal is a comma, optional
whitespace, and the five characters `async` — every matched segment ends
with `},` + whitespace + `async` (first conjunct); a callback written as a
plain function expression (or any other text not putting `async` right
after the comma) is absent from the output (second conjunct); but the
five-character check is a prefix test, not a token test: an identifier
callback named `asyncHandler` is still discovered (third conjunct). -/
theorem discovery_requires_async_text_amended :
    (∀ (code seg : List Char), seg ∈ extractToolSegments code →
      ∃ pre ws, (∀ c ∈ ws, isJsSpace c = true) ∧
        seg = pre ++ '}' :: ',' :: (ws ++ "async".data)) ∧
    extractToolSegments
      ("this.server.tool(\"x\", { a: z.number() }, function (y) { return y })".data)
      = [] ∧
    (extractTools (fun _ => none) c10CexCode).map MethodDoc.name = ["x".data] := by
  refine ⟨?_, by decide, by decide⟩
  intro code seg hmem
  obtain ⟨s', r, hseg⟩ := segScanF_mem hmem
  exact tryToolSeg_txt_shape hseg

def c10WitCode : List Char :=
  "this.server.tool(\"add\", { a: z.number() }, async (x) => x)".data

theorem discovery_requires_async_text_amended_witness :
    ∃ pre ws, (∀ c ∈ ws, isJsSpace c = true) ∧
      "this.server.tool(\"add\", { a: z.number() }, async".data =
        pre ++ '}' :: ',' :: (ws ++ "async".data) :=
  discovery_requires_async_text_amended.1 c10WitCode
    ("this.server.tool(\"add\", { a: z.number() }, async".data) (by decide)

/-! ## Claim C3 — explicit description literal and schema-argument position

The two canonical call shapes this claim is about, as the matched segments
that `extractToolSegments` hands to `extractToolInfo`:
with a description literal, `this.server.tool("<name>", "<desc>", {<body>}, async`,
and without one, `this.server.tool("<name>", {<body>}, async`. -/

/-- The closing text after a segment's schema body. -/
def segTail : List Char := '}' :: ',' :: ' ' :: "async".data

def mkSegWithDesc (name desc body : List Char) : List Char :=
  "this.server.tool(".data ++
    '"' :: (name ++ '"' :: ',' :: ' ' :: '"' ::
      (desc ++ '"' :: ',' :: ' ' :: '{' :: (body ++ segTail)))

def mkSegNoDesc (name body : List Char) : List Char :=
  "this.server.tool(".data ++
    '"' :: (name ++ '"' :: ',' :: ' ' :: '{' :: (body ++ segTail))

/-- No proper suffix of the body already closes the schema group: the
non-greedy match must run to the real closing brace. -/
def noEarlyClose : List Char → Bool
  | [] => true
  | [_] => true
  | _ :: c2 :: cs =>
    (closeTailM ((c2 :: cs) ++ segTail)).isNone && noEarlyClose (c2 :: cs)

theorem closeTailM_segTail : closeTailM segTail = some (segTail, []) := by decide

theorem braceBodyGo_exact :
    ∀ (body : List Char), body ≠ [] → noEarlyClose body = true →
      braceBodyGo (body ++ segTail) = some (body, segTail, [])
  | [], h, _ => absurd rfl h
  | [c], _, _ => by
    show braceBodyGo (c :: segTail) = some ([c], segTail, [])
    unfold braceBodyGo
    rw [closeTailM_segTail]
  | c :: c2 :: cs, _, hne => by
    have hsplit : (closeTailM ((c2 :: cs) ++ segTail)).isNone = true ∧
        noEarlyClose (c2 :: cs) = true := by
      simpa [noEarlyClose] using hne
    have hnone : closeTailM ((c2 :: cs) ++ segTail) = none :=
      Option.isNone_iff_eq_none.mp hsplit.1
    have ih := braceBodyGo_exact (c2 :: cs) (by simp) hsplit.2
    show braceBodyGo (c :: ((c2 :: cs) ++ segTail)) =
      some (c :: c2 :: cs, segTail, [])
    unfold braceBodyGo
    rw [hnone, ih]

theorem takeWhile_middle {p : Char → Bool} {l1 l2 : List Char} {c : Char}
    (h1 : ∀ x ∈ l1, p x = true) (hc : p c = false) :
    (l1 ++ c :: l2).takeWhile p = l1 := by
  induction l1 with
  | nil => simp [List.takeWhile, hc]
  | cons a l ih =>
    have ha : p a = true := h1 a (by simp)
    simp only [List.cons_append, List.takeWhile_cons, ha, if_true]
    rw [ih (fun x hx => h1 x (by simp [hx]))]

theorem dropWhile_middle {p : Char → Bool} {l1 l2 : List Char} {c : Char}
    (h1 : ∀ x ∈ l1, p x = true) (hc : p c = false) :
    (l1 ++ c :: l2).dropWhile p = c :: l2 := by
  induction l1 with
  | nil => simp [List.dropWhile, hc]
  | cons a l ih =>
    have ha : p a = true := h1 a (by simp)
    simp only [List.cons_append, List.dropWhile_cons, ha, if_true]
    exact ih (fun x hx => h1 x (by simp [hx]))

theorem dropLit_self_append (l r : List Char) : dropLit l (l ++ r) = some r := by
  induction l with
  | nil => simp [dropLit]
  | cons c cs ih => simp [dropLit, ih]

theorem quotedM_exact {x rest : List Char} (hn : x ≠ [])
    (hq : ∀ c ∈ x, isQuote c = false) :
    quotedM ('"' :: (x ++ '"' :: rest)) = some ('"', x, '"', rest) := by
  have ht : (x ++ '"' :: rest).takeWhile (fun y => !isQuote y) = x :=
    takeWhile_middle (fun y hy => by simp [hq y hy]) (by simp [isQuote])
  have hd : (x ++ '"' :: rest).dropWhile (fun y => !isQuote y) = '"' :: rest :=
    dropWhile_middle (fun y hy => by simp [hq y hy]) (by simp [isQuote])
  simp only [quotedM, ht, hd]
  simp [isQuote, hn]

/-! ### The schema regex on the canonical segments -/

theorem trySchemaMatch_skip {c : Char} {cs : List Char}
    (hq : isQuote c = false) (hb : c ≠ '{') :
    trySchemaMatch (c :: cs) = none := by
  unfold trySchemaMatch tryPrefixQuoted tryBraceAt
  simp [hq, dropLit, hb]


theorem schemaFind_cons_none {c : Char} {cs : List Char}
    (h : trySchemaMatch (c :: cs) = none) :
    schemaFind (c :: cs) = schemaFind cs := by
  conv_lhs => unfold schemaFind
  rw [h]

theorem schemaFind_skip_all {pre rest : List Char}
    (h : ∀ c ∈ pre, isQuote c = false ∧ c ≠ '{') :
    schemaFind (pre ++ rest) = schemaFind rest := by
  induction pre with
  | nil => rfl
  | cons c l ih =>
    have hc := h c (by simp)
    show schemaFind (c :: (l ++ rest)) = schemaFind rest
    rw [schemaFind_cons_none (trySchemaMatch_skip hc.1 hc.2)]
    exact ih (fun x hx => h x (by simp [hx]))

theorem schemaFind_cons_some {c : Char} {cs t : List Char}
    (h : trySchemaMatch (c :: cs) = some t) : schemaFind (c :: cs) = some t := by
  unfold schemaFind
  rw [h]

/-- Behaviour of the optional quoted-prefix group right at a quote followed
by a quote-free run: the group consumes `"<x>"` then `\s*,\s*`. -/
theorem tryPrefixQuoted_exact {x rest : List Char}
    (hx : ∀ c ∈ x, isQuote c = false) :
    tryPrefixQuoted ('"' :: (x ++ '"' :: rest)) =
      (match dropLit ([',']) (rest.dropWhile isJsSpace) with
       | some s3 => some (s3.dropWhile isJsSpace)
       | none => none) := by
  have hdw : (x ++ '"' :: rest).dropWhile (fun y => !isQuote y) = '"' :: rest :=
    dropWhile_middle (fun y hy => by simp [hx y hy]) (by simp [isQuote])
  simp only [tryPrefixQuoted, hdw]
  simp [isQuote]

theorem tryBraceAt_exact {body : List Char} (hb : body ≠ [])
    (hne : noEarlyClose body = true) :
    tryBraceAt ('{' :: (body ++ segTail)) = some ('{' :: (body ++ ['}'])) := by
  unfold tryBraceAt
  rw [show dropLit (['{']) ('{' :: (body ++ segTail)) = some (body ++ segTail) from
    by simp [dropLit]]
  dsimp only
  rw [braceBodyGo_exact body hb hne]

theorem tryBraceAt_not_brace {c : Char} {Y : List Char} (h : c ≠ '{') :
    tryBraceAt (c :: Y) = none := by
  unfold tryBraceAt
  simp [dropLit, h]

/-- At a quote directly preceding `<x>", {<body>}, async…`, the schema regex
matches with its optional quoted-prefix group, capturing `{<body>}`. -/
theorem trySchemaMatch_at_quote {x body : List Char}
    (hx : ∀ c ∈ x, isQuote c = false) (hb : body ≠ [])
    (hne : noEarlyClose body = true) :
    trySchemaMatch ('"' :: (x ++ '"' :: ',' :: ' ' :: '{' :: (body ++ segTail))) =
      some ('{' :: (body ++ ['}'])) := by
  unfold trySchemaMatch
  rw [tryPrefixQuoted_exact hx]
  rw [show dropLit ([','])
      ((',' :: ' ' :: '{' :: (body ++ segTail)).dropWhile isJsSpace) =
      some (' ' :: '{' :: (body ++ segTail)) from by
    simp [List.dropWhile_cons, isJsSpace, dropLit]]
  dsimp only
  rw [show (' ' :: '{' :: (body ++ segTail)).dropWhile isJsSpace =
      '{' :: (body ++ segTail) from by simp [List.dropWhile_cons, isJsSpace]]
  rw [tryBraceAt_exact hb hne]

/-- At the opening quote of the name when a description literal follows, the
schema regex fails: the prefix group swallows `"<x>", ` but then meets the
description's opening quote instead of a brace, and the bare-brace retry
fails at the quote. -/
theorem trySchemaMatch_quote_then_quote {x Y : List Char}
    (hx : ∀ c ∈ x, isQuote c = false) :
    trySchemaMatch ('"' :: (x ++ '"' :: ',' :: ' ' :: '"' :: Y)) = none := by
  unfold trySchemaMatch
  rw [tryPrefixQuoted_exact hx]
  rw [show dropLit ([','])
      ((',' :: ' ' :: '"' :: Y).dropWhile isJsSpace) =
      some (' ' :: '"' :: Y) from by
    simp [List.dropWhile_cons, isJsSpace, dropLit]]
  dsimp only
  rw [show (' ' :: '"' :: Y).dropWhile isJsSpace = '"' :: Y from by
    simp [List.dropWhile_cons, isJsSpace]]
  rw [tryBraceAt_not_brace (by decide)]
  rw [tryBraceAt_not_brace (by decide)]

/-- At the closing quote of the name when a description literal follows, the
prefix group swallows `", ` up to the description's opening quote, but the
description does not begin with a comma (after no spaces), so the group
fails, and so does the bare-brace retry. -/
theorem trySchemaMatch_at_name_close {Y : List Char} {c0 : Char} {desc' : List Char}
    (h0 : isJsSpace c0 = false) (h1 : c0 ≠ ',') :
    trySchemaMatch ('"' :: ',' :: ' ' :: '"' :: ((c0 :: desc') ++ '"' :: Y)) =
      none := by
  show trySchemaMatch
    ('"' :: (([',', ' '] : List Char) ++ '"' :: ((c0 :: desc') ++ '"' :: Y))) = none
  unfold trySchemaMatch
  rw [@tryPrefixQuoted_exact [',', ' '] _ (by decide)]
  rw [show ((c0 :: desc') ++ '"' :: Y).dropWhile isJsSpace =
      (c0 :: desc') ++ '"' :: Y from by simp [List.dropWhile_cons, h0]]
  rw [show dropLit ([',']) ((c0 :: desc') ++ '"' :: Y) = none from by
    simp [dropLit, h1]]
  rw [tryBraceAt_not_brace (by decide)]

/-! ### The name and description regexes on the canonical segments -/

theorem tryNameMatch_head {x rest : List Char} (hn : x ≠ [])
    (hq : ∀ c ∈ x, isQuote c = false) :
    tryNameMatch ("this.server.tool(".data ++ '"' :: (x ++ '"' :: rest)) =
      some x := by
  unfold tryNameMatch
  rw [dropLit_self_append]
  dsimp only
  rw [show ('"' :: (x ++ '"' :: rest)).dropWhile isJsSpace =
      '"' :: (x ++ '"' :: rest) from by simp [List.dropWhile_cons, isJsSpace]]
  rw [quotedM_exact hn hq]

theorem nameFind_head {s n : List Char} (h : tryNameMatch s = some n) :
    nameFind s = some n := by
  cases s with
  | nil =>
    have : tryNameMatch ([] : List Char) = none := rfl
    rw [this] at h
    exact absurd h (by simp)
  | cons c cs =>
    unfold nameFind
    rw [h]

theorem tryDescMatch_head {name desc rest : List Char} (hn : name ≠ [])
    (hqn : ∀ c ∈ name, isQuote c = false) (hd : desc ≠ [])
    (hqd : ∀ c ∈ desc, isQuote c = false) :
    tryDescMatch ("this.server.tool(".data ++
        '"' :: (name ++ '"' :: ',' :: ' ' :: '"' :: (desc ++ '"' :: rest))) =
      some desc := by
  unfold tryDescMatch
  rw [dropLit_self_append]
  dsimp only
  rw [show ('"' :: (name ++ '"' :: ',' :: ' ' :: '"' :: (desc ++ '"' :: rest))).dropWhile
      isJsSpace = '"' :: (name ++ '"' :: ',' :: ' ' :: '"' :: (desc ++ '"' :: rest)) from
    by simp [List.dropWhile_cons, isJsSpace]]
  rw [quotedM_exact hn hqn]
  dsimp only
  rw [show (',' :: ' ' :: '"' :: (desc ++ '"' :: rest)).dropWhile isJsSpace =
      ',' :: ' ' :: '"' :: (desc ++ '"' :: rest) from by
    simp [List.dropWhile_cons, isJsSpace]]
  rw [show dropLit ([',']) (',' :: ' ' :: '"' :: (desc ++ '"' :: rest)) =
      some (' ' :: '"' :: (desc ++ '"' :: rest)) from by simp [dropLit]]
  dsimp only
  rw [show (' ' :: '"' :: (desc ++ '"' :: rest)).dropWhile isJsSpace =
      '"' :: (desc ++ '"' :: rest) from by simp [List.dropWhile_cons, isJsSpace]]
  rw [quotedM_exact hd hqd]

theorem descFind_head {s d : List Char} (h : tryDescMatch s = some d) :
    descFind s = some d := by
  cases s with
  | nil =>
    have : tryDescMatch ([] : List Char) = none := rfl
    rw [this] at h
    exact absurd h (by simp)
  | cons c cs =>
    unfold descFind
    rw [h]

/-! ### Without a description literal, the description regex never matches:
the segment contains only two quote characters while a match needs four. -/

theorem quotedM_decomp {s : List Char} {a b : Char} {c r : List Char}
    (h : quotedM s = some (a, c, b, r)) :
    s = a :: (c ++ b :: r) ∧ isQuote a = true ∧ isQuote b = true := by
  cases s with
  | nil => simp [quotedM] at h
  | cons x xs =>
    by_cases hx : isQuote x
    · simp only [quotedM, hx, if_true] at h
      rcases hd : xs.dropWhile (fun y => !isQuote y) with _ | ⟨d, ds⟩ <;> rw [hd] at h
      · simp at h
      · by_cases hq : isQuote d
        · by_cases he : (xs.takeWhile (fun y => !isQuote y)).isEmpty
          · simp [hq, he] at h
          · simp [hq, he] at h
            obtain ⟨ha, hc, hb, hr⟩ := h
            subst ha; subst hc; subst hb; subst hr
            refine ⟨?_, hx, hq⟩
            rw [← hd, List.takeWhile_append_dropWhile]
        · simp [hq] at h
    · simp [quotedM, hx] at h

theorem tryDescMatch_four_quotes {s d : List Char} (h : tryDescMatch s = some d) :
    4 ≤ s.countP isQuote := by
  unfold tryDescMatch at h
  rcases h1 : dropLit ("this.server.tool(".data) s with _ | s1
  · rw [h1] at h; simp at h
  · rw [h1] at h; dsimp only at h
    rcases h2 : quotedM (s1.dropWhile isJsSpace) with _ | ⟨q1, c1, q2, s3⟩
    · rw [h2] at h; simp at h
    · rw [h2] at h; dsimp only at h
      rcases h3 : dropLit ([',']) (s3.dropWhile isJsSpace) with _ | s5
      · rw [h3] at h; simp at h
      · rw [h3] at h; dsimp only at h
        rcases h4 : quotedM (s5.dropWhile isJsSpace) with _ | ⟨q3, c2, q4, r2⟩
        · rw [h4] at h; simp at h
        · obtain ⟨hd2, hq1, hq2⟩ := quotedM_decomp h2
          obtain ⟨hd4, hq3, hq4⟩ := quotedM_decomp h4
          have e0 : s.countP isQuote = s1.countP isQuote := by
            rw [dropLit_eq_append h1, List.countP_append,
              show ("this.server.tool(".data).countP isQuote = 0 from by decide]
            omega
          have e1 : (s1.dropWhile isJsSpace).countP isQuote ≤ s1.countP isQuote :=
            (List.dropWhile_sublist _).countP_le _
          have e2 : 2 + s3.countP isQuote ≤ (s1.dropWhile isJsSpace).countP isQuote := by
            rw [hd2]
            simp [List.countP_cons, List.countP_append, hq1, hq2]
            omega
          have e3 : (s3.dropWhile isJsSpace).countP isQuote ≤ s3.countP isQuote :=
            (List.dropWhile_sublist _).countP_le _
          have e4 : (s3.dropWhile isJsSpace).countP isQuote = s5.countP isQuote := by
            rw [dropLit_eq_append h3, List.countP_append,
              show (([','] : List Char)).countP isQuote = 0 from by decide]
            omega
          have e5 : (s5.dropWhile isJsSpace).countP isQuote ≤ s5.countP isQuote :=
            (List.dropWhile_sublist _).countP_le _
          have e6 : 2 ≤ (s5.dropWhile isJsSpace).countP isQuote := by
            rw [hd4]
            simp [List.countP_cons, List.countP_append, hq3, hq4]
            omega
          omega

theorem descFind_none_of_few_quotes {s : List Char}
    (h : s.countP isQuote < 4) : descFind s = none := by
  induction s with
  | nil => rfl
  | cons c cs ih =>
    unfold descFind
    rcases hm : tryDescMatch (c :: cs) with _ | d
    · dsimp only
      refine ih ?_
      have := List.countP_cons isQuote c cs
      omega
    · have h4 := tryDescMatch_four_quotes hm
      omega

/-! ### Assembling `extractToolInfo` on the canonical segments -/

theorem schemaFind_mkSegNoDesc {name body : List Char}
    (hname : ∀ c ∈ name, isQuote c = false ∧ c ≠ '{')
    (hb : body ≠ []) (hne : noEarlyClose body = true) :
    schemaFind (mkSegNoDesc name body) = some ('{' :: (body ++ ['}'])) := by
  unfold mkSegNoDesc
  rw [@schemaFind_skip_all "this.server.tool(".data _ (by decide)]
  exact schemaFind_cons_some
    (trySchemaMatch_at_quote (fun c hc => (hname c hc).1) hb hne)

theorem schemaFind_mkSegWithDesc {name desc body : List Char}
    (hname : ∀ c ∈ name, isQuote c = false ∧ c ≠ '{')
    (hdesc : ∀ c ∈ desc, isQuote c = false ∧ c ≠ '{')
    (hdesc0 : ∀ c0 desc', desc = c0 :: desc' → isJsSpace c0 = false ∧ c0 ≠ ',')
    (hdne : desc ≠ [])
    (hb : body ≠ []) (hne : noEarlyClose body = true) :
    schemaFind (mkSegWithDesc name desc body) = some ('{' :: (body ++ ['}'])) := by
  obtain ⟨c0, desc', hdeq⟩ : ∃ c0 desc', desc = c0 :: desc' := by
    cases desc with
    | nil => exact absurd rfl hdne
    | cons c0 d' => exact ⟨c0, d', rfl⟩
  have h0 := hdesc0 c0 desc' hdeq
  unfold mkSegWithDesc
  rw [@schemaFind_skip_all "this.server.tool(".data _ (by decide)]
  rw [schemaFind_cons_none
    (trySchemaMatch_quote_then_quote (fun c hc => (hname c hc).1))]
  rw [@schemaFind_skip_all name _ hname]
  rw [hdeq]
  rw [schemaFind_cons_none (trySchemaMatch_at_name_close h0.1 h0.2)]
  rw [schemaFind_cons_none (@trySchemaMatch_skip ',' _ (by decide) (by decide))]
  rw [schemaFind_cons_none (@trySchemaMatch_skip ' ' _ (by decide) (by decide))]
  refine schemaFind_cons_some (trySchemaMatch_at_quote ?_ hb hne)
  intro c hc
  exact (hdesc c (by rw [hdeq]; exact hc)).1

theorem countP_mkSegNoDesc {name body : List Char}
    (hq1 : ∀ c ∈ name, isQuote c = false)
    (hq2 : ∀ c ∈ body, isQuote c = false) :
    (mkSegNoDesc name body).countP isQuote = 2 := by
  have h1 : name.countP isQuote = 0 :=
    List.countP_eq_zero.mpr (fun c hc => by simp [hq1 c hc])
  have h2 : body.countP isQuote = 0 :=
    List.countP_eq_zero.mpr (fun c hc => by simp [hq2 c hc])
  unfold mkSegNoDesc segTail
  simp [List.countP_append, List.countP_cons, h1, h2, isQuote]

/-- Parameter extraction for a schema text, as `extractToolInfo` performs it
after locating the schema argument: structural parse of
`const schema = <text>` if the oracle succeeds, text-pattern fallback
otherwise. -/
def paramsVia (p : ParseOracle) (schemaText : List Char) : List Param :=
  match p ("const schema = ".data ++ schemaText) with
  | some prog => extractSchemaParams prog
  | none => extractParamsWithRegex schemaText

/-- C3: description-literal policy and type-based (not position-based)
schema-argument identification.  For a registration segment carrying a
string literal in the second slot, the output `description` is exactly that
literal's value; without it, the description is the auto-generated default —
and in both shapes the very same schema text `{<body>}` is located (in the
second or third argument position) and drives parameter extraction.
Side conditions: the name is nonempty and quote- and brace-free, the
description is nonempty, quote- and brace-free and does not begin with
whitespace or a comma, the schema body is nonempty, quote-free, and closes
only at its real closing brace. -/
theorem description_literal_policy (p : ParseOracle) (name desc body : List Char)
    (hn : name ≠ [])
    (hname : ∀ c ∈ name, isQuote c = false ∧ c ≠ '{')
    (hdne : desc ≠ [])
    (hdesc : ∀ c ∈ desc, isQuote c = false ∧ c ≠ '{')
    (hdesc0 : ∀ c0 desc', desc = c0 :: desc' → isJsSpace c0 = false ∧ c0 ≠ ',')
    (hb : body ≠ [])
    (hbody : ∀ c ∈ body, isQuote c = false)
    (hne : noEarlyClose body = true) :
    extractToolInfo p (mkSegWithDesc name desc body) =
      { name := name
        description := desc
        params := paramsVia p ('{' :: (body ++ ['}']))
        returns := some { type := "string".data,
                          description := some (resultDesc name) } } ∧
    extractToolInfo p (mkSegNoDesc name body) =
      { name := name
        description := autoDesc name
        params := paramsVia p ('{' :: (body ++ ['}']))
        returns := some { type := "string".data,
                          description := some (resultDesc name) } } := by
  have hqn : ∀ c ∈ name, isQuote c = false := fun c hc => (hname c hc).1
  have hqd : ∀ c ∈ desc, isQuote c = false := fun c hc => (hdesc c hc).1
  constructor
  · have h1 : nameFind (mkSegWithDesc name desc body) = some name :=
      nameFind_head (tryNameMatch_head hn hqn)
    have h2 : descFind (mkSegWithDesc name desc body) = some desc :=
      descFind_head (tryDescMatch_head hn hqn hdne hqd)
    have h3 : schemaFind (mkSegWithDesc name desc body) =
        some ('{' :: (body ++ ['}'])) :=
      schemaFind_mkSegWithDesc hname hdesc hdesc0 hdne hb hne
    unfold extractToolInfo
    rw [h1, h2, h3]
    rfl
  · have h1 : nameFind (mkSegNoDesc name body) = some name :=
      nameFind_head (tryNameMatch_head hn hqn)
    have h2 : descFind (mkSegNoDesc name body) = none :=
      descFind_none_of_few_quotes (by rw [countP_mkSegNoDesc hqn hbody]; omega)
    have h3 : schemaFind (mkSegNoDesc name body) = some ('{' :: (body ++ ['}'])) :=
      schemaFind_mkSegNoDesc hname hb hne
    unfold extractToolInfo
    rw [h1, h2, h3]
    rfl

theorem description_literal_policy_witness :
    extractToolInfo (fun _ => none)
        (mkSegWithDesc ("subtract".data)
          ("Subtracts the second number from the first".data)
          (" a: z.number() ".data)) =
      { name := "subtract".data
        description := "Subtracts the second number from the first".data
        params := paramsVia (fun _ => none) ('{' :: (" a: z.number() ".data ++ ['}']))
        returns := some { type := "string".data,
                          description := some (resultDesc ("subtract".data)) } } ∧
    extractToolInfo (fun _ => none) (mkSegNoDesc ("subtract".data) (" a: z.number() ".data)) =
      { name := "subtract".data
        description := autoDesc ("subtract".data)
        params := paramsVia (fun _ => none) ('{' :: (" a: z.number() ".data ++ ['}']))
        returns := some { type := "string".data,
                          description := some (resultDesc ("subtract".data)) } } :=
  description_literal_policy (fun _ => none) ("subtract".data)
    ("Subtracts the second number from the first".data) (" a: z.number() ".data)
    (by decide) (by decide) (by decide) (by decide)
    (by intro c0 d' h; injection h with h1 h2; subst h1; decide)
    (by decide) (by decide) (by decide)
